import Mathlib

/-!
# keyfob_msg: a shallow embedding of `src/lib/keyfob_msg.cc`

The decoder scans a stream of envelope-detected amplitude samples for a
13-bit preamble, locks onto the bit centre with an early/late gate, searches
the bit rate by hill climbing on an energy discriminant, validates the 36
payload symbols against a reference level and slices the address and switch
fields.

Modelling conventions.

* Samples, rates and levels are exact rationals (`ℚ`): C `float`/`double`
  rounding, infinities and NaN are outside the model.  Division by zero is
  Lean's (`x / 0 = 0`).
* In particular the products `samples_per_bit * k` under `int(...)` are exact
  products.  The source forms them in binary32 (`float temp_spb`,
  `float samples_per_bit`), so the sample positions of the model are those of
  the source where the products are exactly representable
  (`binary32_round_of_value`), as they are for a whole number of samples per
  bit (`binary32_value_intCast`); elsewhere the two can differ by one sample
  (`binary32_product_leaves_floor`).
* The input pointer `in` is a total function `ℤ → ℚ`; a pointer `in + c` is
  the pair of the function and the offset `c`.  Negative indices are the
  history the host supplies.
* C `int` values are `ℤ` (no wrap-around; signed overflow is undefined in C).
  The conversion `int(x)` of a floating value is truncation toward zero,
  `truncQ`.
* The fields of the class are declared in `keyfob_msg.h`, which is not part of
  the sources at hand; they are taken to be real-valued, as their uses in
  `keyfob_msg.cc` (`d_rate / d_bitrate`, `int(d_samples_per_bit*j)`) suggest.
* The two `while` loops of `work` have no iteration bound in the source.  They
  are modelled with a fuel argument: `none` means that the fuel ran out.
* The message posted to the queue is modelled by the triple it is printed
  from (`ref`, `addr_bits`, `switch_bits`).
* For the questions about reads outside the supplied buffer there is a second
  model, `work_checked` and the other `…_checked` functions, over a bounded
  window `ℤ → Option ℚ`; it refines the first one (`work_checked_refines`).
-/

/-! ## Definitions -/

/-- C conversion `int(x)` of a floating value: truncation toward zero. -/
def truncQ (x : ℚ) : ℤ := if 0 ≤ x then ⌊x⌋ else ⌈x⌉

/-- C conversion of a `bool` to `int`. -/
def boolToNat (b : Bool) : ℕ := if b then 1 else 0

/-- The loop `for (j = lo; j < hi; j++) acc += f j`, started from `acc`. -/
def sumFor (lo hi : ℤ) (f : ℤ → ℚ) (acc : ℚ) : ℚ :=
  (List.range (hi - lo).toNat).foldl (fun (e : ℚ) (k : ℕ) => e + f (lo + (k : ℤ))) acc

/-- The data members of `keyfob_msg` that `work` reads or writes (the message
queue is modelled by the list of records `work` returns). -/
structure keyfob_msg where
  d_rate : ℚ
  d_threshold : ℚ
  d_bitrate_min : ℚ
  d_bitrate_max : ℚ
  d_bitrate : ℚ
  d_bitrate_step : ℚ
  d_samples_per_bit : ℚ
  deriving DecidableEq

/-- The message `work` posts: `payload << ref << " " << addr_bits << " " << switch_bits`. -/
structure Message where
  ref : ℚ
  addr_bits : ℤ
  switch_bits : ℤ
  deriving DecidableEq

/-- The constructor `keyfob_msg::keyfob_msg (queue, rate, threshold)`. -/
def keyfob_make_msg (rate threshold : ℚ) : keyfob_msg :=
  { d_rate := rate
    d_threshold := threshold
    d_bitrate_min := 2200
    d_bitrate_max := 2600
    d_bitrate := 2400
    d_bitrate_step := 20
    d_samples_per_bit := rate / 2400 }

/-- `bit_energy(data + c, samples_per_chip)`. -/
def bit_energy (data : ℤ → ℚ) (c : ℤ) (samples_per_chip : ℤ) : ℚ :=
  if samples_per_chip ≤ 2 then data c
  else sumFor (1 - samples_per_chip.tdiv 2) (samples_per_chip.tdiv 2) (fun j => data (c + j)) 0

/-- `early_late(data + c, samples_per_chip)`. -/
def early_late (data : ℤ → ℚ) (c : ℤ) (samples_per_chip : ℤ) : ℤ :=
  let gate_sum_early := bit_energy data (c + (-1)) samples_per_chip
  let gate_sum_now := bit_energy data (c + 0) samples_per_chip
  let gate_sum_late := bit_energy data (c + 1) samples_per_chip
  if gate_sum_early > gate_sum_now then -1
  else if gate_sum_late > gate_sum_now then 1
  else 0

/-- `keyfob_msg::get_energy_diff(data + c, samples_per_bit)`: the pair
`(zerosum, onesum)` is accumulated over the 36 symbols; the `float`
`samples_per_bit` is truncated where it is passed as `int samples_per_chip`.
The products `samples_per_bit * (13 + 3*i)` are exact here and binary32 in
the source: the positions agree where the products are binary32 values. -/
def get_energy_diff (data : ℤ → ℚ) (c : ℤ) (samples_per_bit : ℚ) : ℚ :=
  let sums := (List.range 36).foldl
    (fun (acc : ℚ × ℚ) (i : ℕ) =>
      (acc.1 + bit_energy data (c + (0 + truncQ (samples_per_bit * ((13 + 3 * i : ℤ) : ℚ))))
                 (truncQ samples_per_bit),
       acc.2 + bit_energy data (c + (0 + truncQ (samples_per_bit * ((15 + 3 * i : ℤ) : ℚ))))
                 (truncQ samples_per_bit)))
    (0, 0)
  sums.2 - sums.1

/-- `keyfob_msg::get_clock_rate_dir(data + c, bitrate)`. -/
def get_clock_rate_dir (self : keyfob_msg) (data : ℤ → ℚ) (c : ℤ) (bitrate : ℚ) : ℤ :=
  let currdiff := get_energy_diff data c (self.d_rate / bitrate)
  let nextdiff := get_energy_diff data c (self.d_rate / (bitrate + self.d_bitrate_step))
  let prevdiff := get_energy_diff data c (self.d_rate / (bitrate - self.d_bitrate_step))
  if prevdiff > currdiff then -1
  else if nextdiff > currdiff then 1
  else 0

/-- The array `preamble_data` of `work`. -/
def preamble_data : List Bool :=
  [true, false, true, true, false, false, true, false, true, true, false, false, true]

/-- Lines 152-161 of `work`: the value of `preamble_found` after the loop over
`j = 1..12` (the loop has no early exit; a failed check clears the flag). -/
def preamble_found (self : keyfob_msg) (inp : ℤ → ℚ) (i : ℤ) : Bool :=
  let ref := inp i
  let refmin := 7 / 10 * ref
  let refmax := 13 / 10 * ref
  (List.range' 1 12).foldl
    (fun (found : Bool) (j : ℕ) =>
      let d := inp (i + truncQ (self.d_samples_per_bit * ((j : ℤ) : ℚ)))
      if preamble_data.getD j false then
        (if d < refmin ∨ d > refmax then false else found)
      else
        (if d > refmin then false else found))
    true

/-- Lines 144-162 of `work`: the scan index `i` gets past the three early
`continue`s (threshold, top of the pulse, preamble pattern). -/
def preamble_candidate (self : keyfob_msg) (inp : ℤ → ℚ) (i : ℤ) : Bool :=
  if inp i > self.d_threshold then
    if inp (i + 1) > inp i then false
    else preamble_found self inp i
  else false

/-- Line 169 of `work`, `while(early_late(in+(i++), d_samples_per_bit) > 0);`:
the value of `i` when the loop is left.  The increment is part of the loop
condition, so it also happens on the evaluation that ends the loop. -/
def bit_center : ℕ → (ℤ → ℚ) → ℤ → ℤ → Option ℤ
  | 0, _, _, _ => none
  | fuel + 1, inp, samples_per_chip, i =>
    if early_late inp i samples_per_chip > 0 then bit_center fuel inp samples_per_chip (i + 1)
    else some (i + 1)

/-- Lines 181-192 of `work`: the rate search, from `(temp_bitrate, temp_spb)`;
the result is the pair when the loop is left by `break`.  A `continue` on an
out-of-range rate re-enters the loop with nothing changed. -/
def rate_search (self : keyfob_msg) (inp : ℤ → ℚ) (i : ℤ) : ℕ → ℚ → ℚ → Option (ℚ × ℚ)
  | 0, _, _ => none
  | fuel + 1, temp_bitrate, temp_spb =>
    if temp_bitrate > self.d_bitrate_max then rate_search self inp i fuel temp_bitrate temp_spb
    else if temp_bitrate < self.d_bitrate_min then
      rate_search self inp i fuel temp_bitrate temp_spb
    else
      let clock_rate_dir := get_clock_rate_dir self inp i temp_bitrate
      if clock_rate_dir = 0 then some (temp_bitrate, temp_spb)
      else
        rate_search self inp i fuel
          (temp_bitrate + (clock_rate_dir : ℚ) * self.d_bitrate_step)
          (self.d_rate / (temp_bitrate + (clock_rate_dir : ℚ) * self.d_bitrate_step))

/-- Lines 203-213 of `work`: the value of `its_on` after the validation loop
(the `break`s only cut the loop short once the flag is cleared).  The
products `temp_spb * (13 + 3*j)` are exact here and binary32 in the source:
the positions agree where the products are binary32 values. -/
def its_on (inp : ℤ → ℚ) (i : ℤ) (temp_spb ref : ℚ) : Bool :=
  (List.range 36).all fun j =>
    !(decide (inp (i + truncQ (temp_spb * ((13 + 3 * j : ℤ) : ℚ))) > ref)
      || decide (inp (i + truncQ (temp_spb * ((15 + 3 * j : ℤ) : ℚ))) < ref))

/-- Lines 228-229 of `work`: `address[j]`. -/
def address (inp : ℤ → ℚ) (i : ℤ) (spb ref : ℚ) (j : ℕ) : ℕ :=
  (boolToNat (decide (inp (i + truncQ (spb * ((14 + 6 * j + 0 : ℤ) : ℚ))) > ref)) <<< 1) |||
  (boolToNat (decide (inp (i + truncQ (spb * ((14 + 6 * j + 3 : ℤ) : ℚ))) > ref)) <<< 0)

/-- Lines 226-231 of `work`: `addr_bits` after the loop. -/
def addr_bits (inp : ℤ → ℚ) (i : ℤ) (spb ref : ℚ) : ℤ :=
  (List.range 10).foldl
    (fun (acc : ℤ) (j : ℕ) => acc + (if address inp i spb ref j = 3 then (0 : ℤ) else ((1 <<< j : ℕ) : ℤ)))
    0

/-- Lines 235-236 of `work`: `switches[j]`. -/
def switches (inp : ℤ → ℚ) (i : ℤ) (spb ref : ℚ) (j : ℕ) : ℕ :=
  (boolToNat (decide (inp (i + truncQ (spb * ((74 + 6 * j + 0 : ℤ) : ℚ))) > ref)) <<< 1) |||
  (boolToNat (decide (inp (i + truncQ (spb * ((74 + 6 * j + 3 : ℤ) : ℚ))) > ref)) <<< 0)

/-- Lines 233-238 of `work`: `switch_bits` after the loop. -/
def switch_bits (inp : ℤ → ℚ) (i : ℤ) (spb ref : ℚ) : ℤ :=
  (List.range 8).foldl
    (fun (acc : ℤ) (j : ℕ) => acc + (if switches inp i spb ref j = 1 then (0 : ℤ) else ((1 <<< j : ℕ) : ℤ)))
    0

/-- The outcome of one pass through the body of the `for` loop of `work`:
the object after the pass, the messages posted and the value of `i` at the end
of the body (before the `i++` of the loop). -/
structure BodyResult where
  self : keyfob_msg
  posted : List Message
  i : ℤ
  deriving DecidableEq

/-- Lines 144-248 of `work`: one pass through the body of the `for` loop at
scan index `i`. -/
def work_body (fuel : ℕ) (self : keyfob_msg) (inp : ℤ → ℚ) (i : ℤ) : Option BodyResult :=
  if preamble_candidate self inp i then
    match bit_center fuel inp (truncQ self.d_samples_per_bit) i with
    | none => none
    | some c =>
      match rate_search self inp c fuel self.d_bitrate self.d_samples_per_bit with
      | none => none
      | some (temp_bitrate, temp_spb) =>
        let ref := inp c / 2
        if its_on inp c temp_spb ref then
          some { self := { self with d_bitrate := temp_bitrate, d_samples_per_bit := temp_spb }
                 posted := [{ ref := ref
                              addr_bits := addr_bits inp c temp_spb ref
                              switch_bits := switch_bits inp c temp_spb ref }]
                 i := c + truncQ (128 * temp_spb) }
        else
          some { self := self, posted := [], i := truncQ ((c : ℚ) + 128 * self.d_samples_per_bit) }
  else some { self := self, posted := [], i := i }

/-- The outcome of `work`: the object afterwards, the messages posted in
order, and the returned value. -/
structure WorkResult where
  self : keyfob_msg
  posted : List Message
  ret : ℤ
  deriving DecidableEq

/-- The `for (...; i < noutput_items; i++)` loop of `work`, entered at `i` with
`posted` already sent. -/
def work_loop (inp : ℤ → ℚ) (noutput_items : ℤ) :
    ℕ → keyfob_msg → List Message → ℤ → Option WorkResult
  | 0, _, _, _ => none
  | fuel + 1, self, posted, i =>
    if i < noutput_items then
      match work_body fuel self inp i with
      | none => none
      | some r => work_loop inp noutput_items fuel r.self (posted ++ r.posted) (r.i + 1)
    else some { self := self, posted := posted, ret := i }

/-- `keyfob_msg::work(noutput_items, in)`. -/
def work (fuel : ℕ) (self : keyfob_msg) (inp : ℤ → ℚ) (noutput_items : ℤ) : Option WorkResult :=
  work_loop inp noutput_items fuel self [] 0

/-- A window whose expected-one samples sit exactly on the reference level
`in[0]/2 = 1`, at ten samples per bit. -/
def tie_window (x : ℤ) : ℚ := if x = 0 then 2 else if x % 30 = 0 then 1 else 0

/-- Test-vector encoder, chip level (from the round-trip property of the
specification; the repository has no transmitter): chip `c` of a packet is
high or low.  Chips `0..12` are the preamble; chips `13 + 3k`, `14 + 3k`,
`15 + 3k` are the three chips (low, data, high) of symbol `k < 36`. -/
def packet_chip (data : ℕ → Bool) (c : ℕ) : Bool :=
  if c < 13 then preamble_data.getD c false
  else if c < 121 then
    (if (c - 13) % 3 = 0 then false
     else if (c - 13) % 3 = 1 then data ((c - 13) / 3)
     else true)
  else false

/-- Test-vector encoder, sample level: the noise-free stream that is `0`
everywhere except a packet starting at index `p`, each chip held at amplitude
`A` (high) or `0` (low) for ten samples. -/
def packet_stream (A : ℚ) (p : ℤ) (data : ℕ → Bool) (x : ℤ) : ℚ :=
  if x < p then 0
  else if packet_chip data ((x - p) / 10).toNat then A else 0

/-- One choice of data chips for address `a` and switches `s`: the data chips
of symbols `2j`, `2j+1` are both high iff bit `j` of `a` is clear (both low
otherwise); those of symbols `20+2j`, `21+2j` are (low, high) iff bit `j` of
`s` is clear ((high, high) otherwise). -/
def encode_data (a s : ℕ) (k : ℕ) : Bool :=
  if k < 20 then !(a.testBit (k / 2))
  else if k % 2 = 0 then s.testBit ((k - 20) / 2)
  else true

/-- A window of pulses of height 1 at ten samples per bit: a pulse at index 0
and, for `j ≥ 1`, a pulse at index `10*j` exactly where `b j` is set. -/
def deviation_window (b : ℕ → Bool) (x : ℤ) : ℚ :=
  if x = 0 then 1 else if x % 10 = 0 ∧ b (x / 10).toNat = true then 1 else 0

/-- The test vector of the specification: address `0x155`, switches `0x0F`,
encoded at amplitude 5 with the packet starting at index 10. -/
def test_window : ℤ → ℚ := packet_stream 5 10 (encode_data 0x155 0x0F)

/-- The message the test vector decodes to. -/
def test_message : Message := { ref := 5 / 2, addr_bits := 0x155, switch_bits := 0x0F }

/-- The outcome of the loop body of `work` at the start of the test vector
(scan index 10, 24000 samples per second, threshold 1). -/
def test_body_result : BodyResult :=
  { self := keyfob_make_msg 24000 1, posted := [test_message], i := 1295 }

/-- The Bit-Clock State invariant of the specification: the nominal bit rate
lies within the search bounds and `samplesPerBit = sampleRate / bitrate`. -/
def bit_clock_invariant (self : keyfob_msg) : Prop :=
  self.d_bitrate_min ≤ self.d_bitrate ∧ self.d_bitrate ≤ self.d_bitrate_max ∧
    self.d_samples_per_bit = self.d_rate / self.d_bitrate

instance (self : keyfob_msg) : Decidable (bit_clock_invariant self) := by
  unfold bit_clock_invariant
  infer_instance

/-- A window that is zero except for a single sample of height 1 at index 2. -/
def spike_window (x : ℤ) : ℚ := if x = 2 then 1 else 0

/-- The discriminant of the rate search at candidate bit rate `bitrate`, as
`get_clock_rate_dir` evaluates it: `get_energy_diff(data, d_rate / bitrate)`. -/
def energy_diff_at (self : keyfob_msg) (data : ℤ → ℚ) (c : ℤ) (bitrate : ℚ) : ℚ :=
  get_energy_diff data c (self.d_rate / bitrate)

/-- A window for two samples per bit (4800 samples per second): the preamble
pulses of height 1 at the even indices `0..24`, followed by samples that grow
quadratically. -/
def runaway_window (x : ℤ) : ℚ :=
  if x ≤ 24 then (if x % 2 = 0 ∧ preamble_data.getD (x / 2).toNat false = true then 1 else 0)
  else (x : ℚ) * (x : ℚ)

/-- A single rectangular pulse of amplitude `A`, `s` samples wide, starting at
index `p`; zero elsewhere. -/
def pulse_window (A : ℚ) (p s : ℤ) (x : ℤ) : ℚ := if p ≤ x ∧ x < p + s then A else 0

/-- One step of the rate search (lines 184-190 of `work`): from a rate `r`
inside the bounds at which `get_clock_rate_dir` is not zero to
`r' = r + clock_rate_dir * d_bitrate_step`. -/
def rate_step (self : keyfob_msg) (inp : ℤ → ℚ) (c : ℤ) (r r' : ℚ) : Prop :=
  ¬ r > self.d_bitrate_max ∧ ¬ r < self.d_bitrate_min ∧
    get_clock_rate_dir self inp c r ≠ 0 ∧
    r' = r + (get_clock_rate_dir self inp c r : ℚ) * self.d_bitrate_step

/-! ### Checked reads

The same functions over a bounded window `ℤ → Option ℚ` (`none` outside the
indices the host supplies): every `in[...]` of the source is a checked read, and
a read outside the window ends the run. -/

/-- Outcome of a run over a bounded window: a result, a read outside the
window, or fuel exhausted. -/
inductive Run (α : Type) where
  | done (a : α) : Run α
  | underrun : Run α
  | timeout : Run α
  deriving DecidableEq

/-- The loop `for (j = lo; j < hi; j++) acc += f j` with checked reads. -/
def sumFor_checked (lo hi : ℤ) (f : ℤ → Option ℚ) (acc : ℚ) : Option ℚ :=
  (List.range (hi - lo).toNat).foldlM
    (fun (e : ℚ) (k : ℕ) => (f (lo + (k : ℤ))).map (fun v => e + v)) acc

/-- `bit_energy(data + c, samples_per_chip)` with checked reads. -/
def bit_energy_checked (win : ℤ → Option ℚ) (c : ℤ) (samples_per_chip : ℤ) : Option ℚ :=
  if samples_per_chip ≤ 2 then win c
  else sumFor_checked (1 - samples_per_chip.tdiv 2) (samples_per_chip.tdiv 2)
    (fun j => win (c + j)) 0

/-- `early_late(data + c, samples_per_chip)` with checked reads. -/
def early_late_checked (win : ℤ → Option ℚ) (c : ℤ) (samples_per_chip : ℤ) : Option ℤ :=
  (bit_energy_checked win (c + (-1)) samples_per_chip).bind fun gate_sum_early =>
  (bit_energy_checked win (c + 0) samples_per_chip).bind fun gate_sum_now =>
  (bit_energy_checked win (c + 1) samples_per_chip).bind fun gate_sum_late =>
  some (if gate_sum_early > gate_sum_now then -1
        else if gate_sum_late > gate_sum_now then 1
        else 0)

/-- `get_energy_diff(data + c, samples_per_bit)` with checked reads. -/
def get_energy_diff_checked (win : ℤ → Option ℚ) (c : ℤ) (samples_per_bit : ℚ) : Option ℚ :=
  ((List.range 36).foldlM
    (fun (acc : ℚ × ℚ) (i : ℕ) =>
      (bit_energy_checked win (c + (0 + truncQ (samples_per_bit * ((13 + 3 * i : ℤ) : ℚ))))
        (truncQ samples_per_bit)).bind fun zero =>
      (bit_energy_checked win (c + (0 + truncQ (samples_per_bit * ((15 + 3 * i : ℤ) : ℚ))))
        (truncQ samples_per_bit)).bind fun one =>
      some (acc.1 + zero, acc.2 + one))
    (0, 0)).map fun sums => sums.2 - sums.1

/-- `get_clock_rate_dir(data + c, bitrate)` with checked reads. -/
def get_clock_rate_dir_checked (self : keyfob_msg) (win : ℤ → Option ℚ) (c : ℤ)
    (bitrate : ℚ) : Option ℤ :=
  (get_energy_diff_checked win c (self.d_rate / bitrate)).bind fun currdiff =>
  (get_energy_diff_checked win c (self.d_rate / (bitrate + self.d_bitrate_step))).bind
    fun nextdiff =>
  (get_energy_diff_checked win c (self.d_rate / (bitrate - self.d_bitrate_step))).bind
    fun prevdiff =>
  some (if prevdiff > currdiff then -1
        else if nextdiff > currdiff then 1
        else 0)

/-- Lines 144-162 of `work` with checked reads: whether scan index `i` gets
past the three early `continue`s. -/
def preamble_candidate_checked (self : keyfob_msg) (win : ℤ → Option ℚ) (i : ℤ) :
    Option Bool :=
  (win i).bind fun x =>
  if x > self.d_threshold then
    (win (i + 1)).bind fun y =>
    if y > x then some false
    else
      let ref := x
      let refmin := 7 / 10 * ref
      let refmax := 13 / 10 * ref
      (List.range' 1 12).foldlM
        (fun (found : Bool) (j : ℕ) =>
          (win (i + truncQ (self.d_samples_per_bit * ((j : ℤ) : ℚ)))).map fun d =>
          if preamble_data.getD j false then
            (if d < refmin ∨ d > refmax then false else found)
          else
            (if d > refmin then false else found))
        true
  else some false

/-- Line 169 of `work` with checked reads. -/
def bit_center_checked : ℕ → (ℤ → Option ℚ) → ℤ → ℤ → Run ℤ
  | 0, _, _, _ => Run.timeout
  | fuel + 1, win, samples_per_chip, i =>
    match early_late_checked win i samples_per_chip with
    | none => Run.underrun
    | some dir =>
      if dir > 0 then bit_center_checked fuel win samples_per_chip (i + 1)
      else Run.done (i + 1)

/-- Lines 181-192 of `work` with checked reads. -/
def rate_search_checked (self : keyfob_msg) (win : ℤ → Option ℚ) (i : ℤ) :
    ℕ → ℚ → ℚ → Run (ℚ × ℚ)
  | 0, _, _ => Run.timeout
  | fuel + 1, temp_bitrate, temp_spb =>
    if temp_bitrate > self.d_bitrate_max then
      rate_search_checked self win i fuel temp_bitrate temp_spb
    else if temp_bitrate < self.d_bitrate_min then
      rate_search_checked self win i fuel temp_bitrate temp_spb
    else
      match get_clock_rate_dir_checked self win i temp_bitrate with
      | none => Run.underrun
      | some clock_rate_dir =>
        if clock_rate_dir = 0 then Run.done (temp_bitrate, temp_spb)
        else
          rate_search_checked self win i fuel
            (temp_bitrate + (clock_rate_dir : ℚ) * self.d_bitrate_step)
            (self.d_rate / (temp_bitrate + (clock_rate_dir : ℚ) * self.d_bitrate_step))

/-- Lines 203-213 of `work` with checked reads, over the symbols `js` still to
be checked; a failed check leaves the loop before the later reads. -/
def its_on_checked (win : ℤ → Option ℚ) (i : ℤ) (temp_spb ref : ℚ) : List ℕ → Option Bool
  | [] => some true
  | j :: js =>
    (win (i + truncQ (temp_spb * ((13 + 3 * j : ℤ) : ℚ)))).bind fun zero =>
    if zero > ref then some false
    else
      (win (i + truncQ (temp_spb * ((15 + 3 * j : ℤ) : ℚ)))).bind fun one =>
      if one < ref then some false
      else its_on_checked win i temp_spb ref js

/-- Lines 226-231 of `work` with checked reads. -/
def addr_bits_checked (win : ℤ → Option ℚ) (i : ℤ) (spb ref : ℚ) : Option ℤ :=
  (List.range 10).foldlM
    (fun (acc : ℤ) (j : ℕ) =>
      (win (i + truncQ (spb * ((14 + 6 * j + 0 : ℤ) : ℚ)))).bind fun hi =>
      (win (i + truncQ (spb * ((14 + 6 * j + 3 : ℤ) : ℚ)))).bind fun lo =>
      some (acc + (if ((boolToNat (decide (hi > ref)) <<< 1) |||
                        (boolToNat (decide (lo > ref)) <<< 0)) = 3
                   then (0 : ℤ) else ((1 <<< j : ℕ) : ℤ))))
    0

/-- Lines 233-238 of `work` with checked reads. -/
def switch_bits_checked (win : ℤ → Option ℚ) (i : ℤ) (spb ref : ℚ) : Option ℤ :=
  (List.range 8).foldlM
    (fun (acc : ℤ) (j : ℕ) =>
      (win (i + truncQ (spb * ((74 + 6 * j + 0 : ℤ) : ℚ)))).bind fun hi =>
      (win (i + truncQ (spb * ((74 + 6 * j + 3 : ℤ) : ℚ)))).bind fun lo =>
      some (acc + (if ((boolToNat (decide (hi > ref)) <<< 1) |||
                        (boolToNat (decide (lo > ref)) <<< 0)) = 1
                   then (0 : ℤ) else ((1 <<< j : ℕ) : ℤ))))
    0

/-- Lines 199-248 of `work` with checked reads: validation, commit, slicing
and skip, once the tracker has locked at `c` and the search has ended. -/
def decode_checked (self : keyfob_msg) (win : ℤ → Option ℚ) (c : ℤ)
    (temp_bitrate temp_spb : ℚ) : Run BodyResult :=
  match win c with
  | none => Run.underrun
  | some x =>
    let ref := x / 2
    match its_on_checked win c temp_spb ref (List.range 36) with
    | none => Run.underrun
    | some false =>
      Run.done { self := self, posted := [],
                 i := truncQ ((c : ℚ) + 128 * self.d_samples_per_bit) }
    | some true =>
      match addr_bits_checked win c temp_spb ref, switch_bits_checked win c temp_spb ref with
      | some a, some s =>
        Run.done
          { self := { self with d_bitrate := temp_bitrate, d_samples_per_bit := temp_spb }
            posted := [{ ref := ref, addr_bits := a, switch_bits := s }]
            i := c + truncQ (128 * temp_spb) }
      | _, _ => Run.underrun

/-- Lines 144-248 of `work` with checked reads: one pass through the body of
the `for` loop at scan index `i`. -/
def work_body_checked (fuel : ℕ) (self : keyfob_msg) (win : ℤ → Option ℚ) (i : ℤ) :
    Run BodyResult :=
  match preamble_candidate_checked self win i with
  | none => Run.underrun
  | some false => Run.done { self := self, posted := [], i := i }
  | some true =>
    match bit_center_checked fuel win (truncQ self.d_samples_per_bit) i with
    | Run.timeout => Run.timeout
    | Run.underrun => Run.underrun
    | Run.done c =>
      match rate_search_checked self win c fuel self.d_bitrate self.d_samples_per_bit with
      | Run.timeout => Run.timeout
      | Run.underrun => Run.underrun
      | Run.done (temp_bitrate, temp_spb) => decode_checked self win c temp_bitrate temp_spb

/-- The `for` loop of `work` with checked reads. -/
def work_loop_checked (win : ℤ → Option ℚ) (noutput_items : ℤ) :
    ℕ → keyfob_msg → List Message → ℤ → Run WorkResult
  | 0, _, _, _ => Run.timeout
  | fuel + 1, self, posted, i =>
    if i < noutput_items then
      match work_body_checked fuel self win i with
      | Run.timeout => Run.timeout
      | Run.underrun => Run.underrun
      | Run.done r => work_loop_checked win noutput_items fuel r.self (posted ++ r.posted) (r.i + 1)
    else Run.done { self := self, posted := posted, ret := i }

/-- `keyfob_msg::work(noutput_items, in)` with checked reads. -/
def work_checked (fuel : ℕ) (self : keyfob_msg) (win : ℤ → Option ℚ) (noutput_items : ℤ) :
    Run WorkResult :=
  work_loop_checked win noutput_items fuel self [] 0

/-- A total window cut down to the indices `lo..hi`. -/
def bounded (inp : ℤ → ℚ) (lo hi : ℤ) (x : ℤ) : Option ℚ :=
  if lo ≤ x ∧ x ≤ hi then some (inp x) else none

/-- A window for 19600 samples per second (49/6 samples per bit at 2400): the
samples in the residue classes 0, 2, 3 modulo 7 start at 1, the others at 0,
and every sample is 1/100 above the one seven indices before it. -/
def creeping_window (x : ℤ) : ℚ :=
  (if x % 7 = 0 ∨ x % 7 = 2 ∨ x % 7 = 3 then 1 else 0) + ((x / 7 : ℤ) : ℚ) / 100

/-- The finite values of IEEE 754 binary32, the C type `float`: `m * 2^e` with a
significand `m` of at most 24 bits and `-149 ≤ e ≤ 104` (normal and subnormal values). -/
def binary32_value (x : ℚ) : Prop :=
  ∃ m e : ℤ, |m| < 2 ^ 24 ∧ -149 ≤ e ∧ e ≤ 104 ∧ x = (m : ℚ) * (2 : ℚ) ^ e

/-- Rounding to the nearest integer, ties to the even one. -/
def round_half_even (x : ℚ) : ℤ :=
  if x - ⌊x⌋ < 1 / 2 then ⌊x⌋
  else if x - ⌊x⌋ > 1 / 2 then ⌊x⌋ + 1
  else if ⌊x⌋ % 2 = 0 then ⌊x⌋ else ⌊x⌋ + 1

/-- The binary32 result of an operation whose exact result is `x` (round to nearest, ties
to even, 24 significant bits, least exponent `-149`; overflow is outside the model).  The
`float` product `temp_spb * (13 + 3*j)` of the source is `binary32_round` of the exact
product. -/
def binary32_round (x : ℚ) : ℚ :=
  if x = 0 then 0
  else
    let e := max (Int.log 2 |x| - 23) (-149)
    (round_half_even (x / (2 : ℚ) ^ e) : ℚ) * (2 : ℚ) ^ e

/-! ## Auxiliary facts -/

theorem truncQ_intCast (n : ℤ) : truncQ (n : ℚ) = n := by
  unfold truncQ
  split <;> simp

theorem truncQ_int_mul (n k : ℤ) : truncQ ((n : ℚ) * (k : ℚ)) = n * k := by
  rw [← Int.cast_mul, truncQ_intCast]

theorem foldl_flag (f : Bool → ℕ → Bool) (ok : ℕ → Bool)
    (h : ∀ b j, f b j = (b && ok j)) (l : List ℕ) (b : Bool) :
    l.foldl f b = (b && l.all ok) := by
  induction l generalizing b with
  | nil => simp
  | cons x xs ih => simp [List.foldl_cons, ih, h, Bool.and_assoc]

theorem foldl_flag_true (f : Bool → ℕ → Bool) (ok : ℕ → Bool)
    (h : ∀ b j, f b j = (b && ok j)) (l : List ℕ) :
    l.foldl f true = l.all ok := by
  rw [foldl_flag f ok h l true, Bool.true_and]

theorem preamble_found_eq_all (self : keyfob_msg) (inp : ℤ → ℚ) (i : ℤ) :
    preamble_found self inp i =
      (List.range' 1 12).all (fun j =>
        if preamble_data.getD j false then
          decide (7 / 10 * inp i ≤ inp (i + truncQ (self.d_samples_per_bit * ((j : ℤ) : ℚ))) ∧
                  inp (i + truncQ (self.d_samples_per_bit * ((j : ℤ) : ℚ))) ≤ 13 / 10 * inp i)
        else decide (inp (i + truncQ (self.d_samples_per_bit * ((j : ℤ) : ℚ))) ≤ 7 / 10 * inp i)) := by
  unfold preamble_found
  refine foldl_flag_true _ _ (fun b j => ?_) _
  · dsimp only
    generalize inp (i + truncQ (self.d_samples_per_bit * ((j : ℤ) : ℚ))) = d
    generalize preamble_data.getD j false = pb
    generalize (7 : ℚ) / 10 * inp i = lo
    generalize (13 : ℚ) / 10 * inp i = hi
    by_cases h1 : d < lo <;> by_cases h2 : d > hi <;> by_cases h3 : d > lo <;>
      cases pb <;> cases b <;> simp [h1, h2, h3] <;> simp_all [not_lt]

theorem preamble_candidate_iff_trunc (self : keyfob_msg) (inp : ℤ → ℚ) (i : ℤ) :
    preamble_candidate self inp i = true ↔
      (inp i > self.d_threshold ∧ inp (i + 1) ≤ inp i ∧
        ∀ j : ℕ, 1 ≤ j → j ≤ 12 →
          if preamble_data.getD j false = true then
            7 / 10 * inp i ≤ inp (i + truncQ (self.d_samples_per_bit * ((j : ℤ) : ℚ))) ∧
              inp (i + truncQ (self.d_samples_per_bit * ((j : ℤ) : ℚ))) ≤ 13 / 10 * inp i
          else inp (i + truncQ (self.d_samples_per_bit * ((j : ℤ) : ℚ))) ≤ 7 / 10 * inp i) := by
  unfold preamble_candidate
  rw [preamble_found_eq_all]
  by_cases h1 : inp i > self.d_threshold
  · by_cases h2 : inp (i + 1) > inp i
    · simp [h1, h2]
    · simp only [h1, h2, if_true, if_false, true_and, not_lt.mp h2, List.all_eq_true,
        List.mem_range']
      constructor
      · intro h j hj1 hj2
        have := h j ⟨j - 1, by omega, by omega⟩
        split at this <;> simp_all
      · rintro h j ⟨k, hk, rfl⟩
        have := h (1 + 1 * k) (by omega) (by omega)
        split at this <;> simp_all
  · simp [h1]

/-! ## Claims -/

/-- C1. Preamble detection: with a whole number `n` of samples per bit, scan index `i`
is accepted as a preamble candidate exactly when (a) `in[i]` exceeds the threshold,
(b) `in[i+1] ≤ in[i]`, and (c) for every `j` in `1..12` the sample at `i + n*j` lies in
`[0.7*in[i], 1.3*in[i]]` when bit `j` of the pattern `1,0,1,1,0,0,1,0,1,1,0,0,1` is one
and is at most `0.7*in[i]` when that bit is zero. -/
theorem preamble_candidate_iff (self : keyfob_msg) (inp : ℤ → ℚ) (i n : ℤ)
    (hn : self.d_samples_per_bit = (n : ℚ)) :
    preamble_candidate self inp i = true ↔
      (inp i > self.d_threshold ∧ inp (i + 1) ≤ inp i ∧
        ∀ j : ℕ, 1 ≤ j → j ≤ 12 →
          if [true, false, true, true, false, false, true, false, true, true, false, false,
              true].getD j false = true then
            7 / 10 * inp i ≤ inp (i + n * j) ∧ inp (i + n * j) ≤ 13 / 10 * inp i
          else inp (i + n * j) ≤ 7 / 10 * inp i) := by
  rw [preamble_candidate_iff_trunc]
  simp only [hn, truncQ_int_mul, preamble_data]

/-- Witness for C1: the preamble of an encoded packet (address `0x155`, switches `0x0F`,
amplitude 5, start index 10) at ten samples per bit. -/
theorem preamble_candidate_iff_witness :
    (keyfob_make_msg 24000 1).d_samples_per_bit = ((10 : ℤ) : ℚ) ∧
    (preamble_candidate (keyfob_make_msg 24000 1)
        (packet_stream 5 10 (encode_data 0x155 0x0F)) 10 = true ↔
      (packet_stream 5 10 (encode_data 0x155 0x0F) 10 > (keyfob_make_msg 24000 1).d_threshold ∧
        packet_stream 5 10 (encode_data 0x155 0x0F) (10 + 1) ≤
          packet_stream 5 10 (encode_data 0x155 0x0F) 10 ∧
        ∀ j : ℕ, 1 ≤ j → j ≤ 12 →
          if [true, false, true, true, false, false, true, false, true, true, false, false,
              true].getD j false = true then
            7 / 10 * packet_stream 5 10 (encode_data 0x155 0x0F) 10 ≤
                packet_stream 5 10 (encode_data 0x155 0x0F) (10 + 10 * j) ∧
              packet_stream 5 10 (encode_data 0x155 0x0F) (10 + 10 * j) ≤
                13 / 10 * packet_stream 5 10 (encode_data 0x155 0x0F) 10
          else packet_stream 5 10 (encode_data 0x155 0x0F) (10 + 10 * j) ≤
                7 / 10 * packet_stream 5 10 (encode_data 0x155 0x0F) 10)) :=
  ⟨by decide!, preamble_candidate_iff _ _ 10 10 (by decide!)⟩

theorem its_on_eq_all (inp : ℤ → ℚ) (i : ℤ) (temp_spb ref : ℚ) :
    its_on inp i temp_spb ref = true ↔
      ∀ j : ℕ, j < 36 →
        inp (i + truncQ (temp_spb * ((13 + 3 * j : ℤ) : ℚ))) ≤ ref ∧
        ref ≤ inp (i + truncQ (temp_spb * ((15 + 3 * j : ℤ) : ℚ))) := by
  simp [its_on, List.all_eq_true, not_or, not_lt]

/-- C2 as stated fails: on `tie_window` (locked index 0, ten samples per bit, `ref = 1`)
every expected-zero sample is `0 ≤ ref` and every expected-one sample equals `ref`, and the
validation loop accepts, although no expected-one sample is strictly above `ref`. -/
theorem its_on_strict_counterexample :
    ¬ (its_on tie_window 0 ((10 : ℤ) : ℚ) (tie_window 0 / 2) = true ↔
        ∀ j : ℕ, j < 36 →
          tie_window (0 + 10 * (13 + 3 * j)) ≤ tie_window 0 / 2 ∧
          tie_window (0 + 10 * (15 + 3 * j)) > tie_window 0 / 2) := by
  intro h
  have h0 := (h.mp (by decide!) 0 (by norm_num)).2
  revert h0
  decide!

/-- C2, amended. Payload validation: with a whole number `n` of samples per bit and
`ref = in[i]/2`, the packet candidate is accepted exactly when for every `j` in `0..35`
the sample at `i + n*(13+3j)` is `≤ ref` and the sample at `i + n*(15+3j)` is `≥ ref`
(a sample equal to `ref` passes either check). -/
theorem its_on_iff (inp : ℤ → ℚ) (i n : ℤ) :
    its_on inp i (n : ℚ) (inp i / 2) = true ↔
      ∀ j : ℕ, j < 36 →
        inp (i + n * (13 + 3 * j)) ≤ inp i / 2 ∧ inp (i + n * (15 + 3 * j)) ≥ inp i / 2 := by
  rw [its_on_eq_all]
  simp only [truncQ_int_mul, ge_iff_le]

/-- C7. Preamble detection rejects every deviation from the canonical pattern: when
`in[i] = ref` with `ref > threshold`, `ref > 0`, `in[i+1] ≤ ref`, and the samples at
`i + n*j` (`j = 1..12`, `n` a whole number of samples per bit) are `ref` where `b j` is
set and `0` where it is clear, index `i` is accepted as a preamble candidate exactly when
`b` is the canonical tail `0,1,1,0,0,1,0,1,1,0,0,1`. -/
theorem preamble_rejects_deviations (self : keyfob_msg) (inp : ℤ → ℚ) (i n : ℤ)
    (b : ℕ → Bool) (ref : ℚ)
    (hn : self.d_samples_per_bit = (n : ℚ))
    (hthr : ref > self.d_threshold) (hpos : ref > 0)
    (hi : inp i = ref) (hnext : inp (i + 1) ≤ ref)
    (hwin : ∀ j : ℕ, 1 ≤ j → j ≤ 12 → inp (i + n * j) = if b j then ref else 0) :
    preamble_candidate self inp i = true ↔
      ∀ j : ℕ, 1 ≤ j → j ≤ 12 →
        b j = [true, false, true, true, false, false, true, false, true, true, false, false,
                true].getD j false := by
  rw [preamble_candidate_iff_trunc]
  simp only [hn, truncQ_int_mul, preamble_data, hi]
  constructor
  · rintro ⟨-, -, h⟩ j h1 h2
    have hj := h j h1 h2
    rw [hwin j h1 h2] at hj
    revert hj
    generalize [true, false, true, true, false, false, true, false, true, true, false, false,
                true].getD j false = pb
    cases pb <;> cases b j <;> simp <;> intros <;> linarith
  · intro h
    refine ⟨hthr, hnext, fun j h1 h2 => ?_⟩
    have hj := h j h1 h2
    rw [hwin j h1 h2, hj]
    generalize [true, false, true, true, false, false, true, false, true, true, false, false,
                true].getD j false = pb
    cases pb <;> simp <;> (try constructor) <;> linarith

/-- Witness for C7: the all-ones deviation at ten samples per bit, threshold 1/2. -/
theorem preamble_rejects_deviations_witness :
    ((keyfob_make_msg 24000 (1 / 2)).d_samples_per_bit = ((10 : ℤ) : ℚ) ∧
      (1 : ℚ) > (keyfob_make_msg 24000 (1 / 2)).d_threshold ∧ (1 : ℚ) > 0 ∧
      deviation_window (fun _ => true) 0 = 1 ∧ deviation_window (fun _ => true) (0 + 1) ≤ 1 ∧
      (∀ j : ℕ, 1 ≤ j → j ≤ 12 →
        deviation_window (fun _ => true) (0 + 10 * j) =
          if (fun _ => true) j = true then 1 else 0)) ∧
    (preamble_candidate (keyfob_make_msg 24000 (1 / 2)) (deviation_window (fun _ => true)) 0
        = true ↔
      ∀ j : ℕ, 1 ≤ j → j ≤ 12 →
        (fun _ => true) j =
          [true, false, true, true, false, false, true, false, true, true, false, false,
            true].getD j false) :=
  have hwin : ∀ j : ℕ, 1 ≤ j → j ≤ 12 →
      deviation_window (fun _ => true) (0 + 10 * j) =
        if (fun _ => true) j = true then 1 else 0 := by
    intro j h1 h2
    interval_cases j <;> decide!
  ⟨⟨by decide!, by decide!, by decide!, by decide!, by decide!, hwin⟩,
    preamble_rejects_deviations _ _ 0 10 (fun _ => true) 1 (by decide!) (by decide!)
      (by decide!) (by decide!) (by decide!) hwin⟩

theorem foldl_add_eq_sum (g : ℕ → ℤ) (l : List ℕ) (a : ℤ) :
    l.foldl (fun acc j => acc + g j) a = a + (l.map g).sum := by
  induction l generalizing a with
  | nil => simp
  | cons x xs ih => simp [List.foldl_cons, ih, add_assoc]

theorem foldl_range_eq_sum (g : ℕ → ℤ) (n : ℕ) :
    (List.range n).foldl (fun acc j => acc + g j) 0 = ∑ j in Finset.range n, g j := by
  rw [foldl_add_eq_sum, zero_add]
  induction n with
  | zero => simp
  | succ k ih => simp [List.range_succ, Finset.sum_range_succ, ih]

theorem address_eq (inp : ℤ → ℚ) (i : ℤ) (spb ref : ℚ) (j : ℕ) :
    address inp i spb ref j =
      2 * (if inp (i + truncQ (spb * ((14 + 6 * j : ℤ) : ℚ))) > ref then 1 else 0) +
        (if inp (i + truncQ (spb * ((17 + 6 * j : ℤ) : ℚ))) > ref then 1 else 0) := by
  unfold address boolToNat
  have e : (14 + 6 * (j : ℤ) + 3) = 17 + 6 * j := by ring
  rw [add_zero, e]
  by_cases h1 : inp (i + truncQ (spb * ((14 + 6 * j : ℤ) : ℚ))) > ref <;>
    by_cases h2 : inp (i + truncQ (spb * ((17 + 6 * j : ℤ) : ℚ))) > ref <;>
    simp only [h1, h2, decide_True, decide_False, if_true, if_false, Bool.false_eq_true] <;>
    rfl

theorem switches_eq (inp : ℤ → ℚ) (i : ℤ) (spb ref : ℚ) (j : ℕ) :
    switches inp i spb ref j =
      2 * (if inp (i + truncQ (spb * ((74 + 6 * j : ℤ) : ℚ))) > ref then 1 else 0) +
        (if inp (i + truncQ (spb * ((77 + 6 * j : ℤ) : ℚ))) > ref then 1 else 0) := by
  unfold switches boolToNat
  have e : (74 + 6 * (j : ℤ) + 3) = 77 + 6 * j := by ring
  rw [add_zero, e]
  by_cases h1 : inp (i + truncQ (spb * ((74 + 6 * j : ℤ) : ℚ))) > ref <;>
    by_cases h2 : inp (i + truncQ (spb * ((77 + 6 * j : ℤ) : ℚ))) > ref <;>
    simp only [h1, h2, decide_True, decide_False, if_true, if_false, Bool.false_eq_true] <;>
    rfl

theorem addr_bits_eq_sum (inp : ℤ → ℚ) (i : ℤ) (spb ref : ℚ) :
    addr_bits inp i spb ref =
      ∑ j in Finset.range 10, (if address inp i spb ref j = 3 then (0 : ℤ) else 2 ^ j) := by
  unfold addr_bits
  rw [foldl_range_eq_sum]
  simp [Nat.shiftLeft_eq]

theorem switch_bits_eq_sum (inp : ℤ → ℚ) (i : ℤ) (spb ref : ℚ) :
    switch_bits inp i spb ref =
      ∑ j in Finset.range 8, (if switches inp i spb ref j = 1 then (0 : ℤ) else 2 ^ j) := by
  unfold switch_bits
  rw [foldl_range_eq_sum]
  simp [Nat.shiftLeft_eq]

/-- The three ways a pass through the loop body can end: no candidate at `i`; a candidate
whose payload validation fails; a candidate that is validated, committed and posted. -/
theorem work_body_cases (fuel : ℕ) (self : keyfob_msg) (inp : ℤ → ℚ) (i : ℤ) (r : BodyResult)
    (h : work_body fuel self inp i = some r) :
    (preamble_candidate self inp i = false ∧ r = { self := self, posted := [], i := i }) ∨
    ∃ c temp_bitrate temp_spb,
      preamble_candidate self inp i = true ∧
      bit_center fuel inp (truncQ self.d_samples_per_bit) i = some c ∧
      rate_search self inp c fuel self.d_bitrate self.d_samples_per_bit
        = some (temp_bitrate, temp_spb) ∧
      ((its_on inp c temp_spb (inp c / 2) = false ∧
          r = { self := self, posted := [],
                i := truncQ ((c : ℚ) + 128 * self.d_samples_per_bit) }) ∨
       (its_on inp c temp_spb (inp c / 2) = true ∧
          r = { self := { self with d_bitrate := temp_bitrate, d_samples_per_bit := temp_spb }
                posted := [{ ref := inp c / 2
                             addr_bits := addr_bits inp c temp_spb (inp c / 2)
                             switch_bits := switch_bits inp c temp_spb (inp c / 2) }]
                i := c + truncQ (128 * temp_spb) })) := by
  unfold work_body at h
  split at h
  next hc =>
    right
    split at h
    next => cases h
    next c hb =>
      split at h
      next => cases h
      next tb tspb hr =>
        refine ⟨c, tb, tspb, hc, hb, hr, ?_⟩
        dsimp only at h
        split at h
        next ho =>
          right
          simp only [Option.some.injEq] at h
          exact ⟨ho, h.symm⟩
        next ho =>
          left
          simp only [Option.some.injEq] at h
          exact ⟨by simpa using ho, h.symm⟩
  next hc =>
    left
    simp only [Option.some.injEq] at h
    exact ⟨by simpa using hc, h.symm⟩

/-- C3. Slicing: when a pass of the loop body of `work` posts a message (validation
succeeded at the locked index `c`, a whole number `n` of samples per bit was committed),
its reference level is `in[c]/2`, its address value is the sum over `j` in `0..9` of
`0` if `code_a(j) = 3` and `2^j` otherwise, and its switch value is the sum over `j` in
`0..7` of `0` if `code_s(j) = 1` and `2^j` otherwise, where
`code_a(j) = 2*[in[c + n*(14+6j)] > ref] + [in[c + n*(17+6j)] > ref]` and
`code_s(j) = 2*[in[c + n*(74+6j)] > ref] + [in[c + n*(77+6j)] > ref]`. -/
theorem slicing_spec (fuel : ℕ) (self : keyfob_msg) (inp : ℤ → ℚ) (i c n : ℤ)
    (r : BodyResult) (m : Message)
    (h : work_body fuel self inp i = some r) (hm : m ∈ r.posted)
    (hc : bit_center fuel inp (truncQ self.d_samples_per_bit) i = some c)
    (hn : r.self.d_samples_per_bit = (n : ℚ)) :
    m.ref = inp c / 2 ∧
    m.addr_bits = ∑ j in Finset.range 10,
      (if 2 * (if inp (c + n * (14 + 6 * j)) > m.ref then 1 else 0) +
            (if inp (c + n * (17 + 6 * j)) > m.ref then 1 else 0) = 3
        then (0 : ℤ) else 2 ^ j) ∧
    m.switch_bits = ∑ j in Finset.range 8,
      (if 2 * (if inp (c + n * (74 + 6 * j)) > m.ref then 1 else 0) +
            (if inp (c + n * (77 + 6 * j)) > m.ref then 1 else 0) = 1
        then (0 : ℤ) else 2 ^ j) := by
  rcases work_body_cases fuel self inp i r h with ⟨-, hr⟩ | ⟨c', tb, tspb, -, hc', -, hr⟩
  · rw [hr] at hm; cases hm
  · rw [hc] at hc'
    cases hc'
    rcases hr with ⟨-, hr⟩ | ⟨-, hr⟩
    · rw [hr] at hm; cases hm
    · subst hr
      simp only [List.mem_singleton] at hm
      simp only at hn
      subst hm
      simp only [hn, addr_bits_eq_sum, switch_bits_eq_sum, address_eq, switches_eq,
        truncQ_int_mul, true_and]

/-- Witness for C3: the loop body at the start of the test vector. -/
theorem slicing_spec_witness :
    (work_body 20 (keyfob_make_msg 24000 1) test_window 10 = some test_body_result ∧
      test_message ∈ test_body_result.posted ∧
      bit_center 20 test_window (truncQ (keyfob_make_msg 24000 1).d_samples_per_bit) 10
        = some 15 ∧
      test_body_result.self.d_samples_per_bit = ((10 : ℤ) : ℚ)) ∧
    (test_message.ref = test_window 15 / 2 ∧
      test_message.addr_bits = ∑ j in Finset.range 10,
        (if 2 * (if test_window (15 + 10 * (14 + 6 * j)) > test_message.ref then 1 else 0) +
              (if test_window (15 + 10 * (17 + 6 * j)) > test_message.ref then 1 else 0) = 3
          then (0 : ℤ) else 2 ^ j) ∧
      test_message.switch_bits = ∑ j in Finset.range 8,
        (if 2 * (if test_window (15 + 10 * (74 + 6 * j)) > test_message.ref then 1 else 0) +
              (if test_window (15 + 10 * (77 + 6 * j)) > test_message.ref then 1 else 0) = 1
          then (0 : ℤ) else 2 ^ j)) :=
  ⟨⟨by decide!, by decide!, by decide!, by decide!⟩,
    slicing_spec 20 (keyfob_make_msg 24000 1) test_window 10 15 10 test_body_result
      test_message (by decide!) (by decide!) (by decide!) (by decide!)⟩

/-- Loop invariants of `work`: a property of the object and of the messages posted so far
that every pass through the body preserves holds of the result. -/
theorem work_loop_invariant (inp : ℤ → ℚ) (noutput_items : ℤ)
    (I : keyfob_msg → List Message → Prop)
    (hstep : ∀ fuel self posted i r, I self posted → work_body fuel self inp i = some r →
      I r.self (posted ++ r.posted)) :
    ∀ (fuel : ℕ) (self : keyfob_msg) (posted : List Message) (i : ℤ) (res : WorkResult),
      I self posted → work_loop inp noutput_items fuel self posted i = some res →
      I res.self res.posted := by
  intro fuel
  induction fuel with
  | zero => intro self posted i res _ h; simp [work_loop] at h
  | succ k ih =>
    intro self posted i res hI h
    unfold work_loop at h
    split at h
    · split at h
      · cases h
      · next r hr => exact ih _ _ _ _ (hstep _ _ _ _ _ hI hr) h
    · simp only [Option.some.injEq] at h
      subst h
      exact hI

theorem addr_bits_bounds (inp : ℤ → ℚ) (i : ℤ) (spb ref : ℚ) :
    0 ≤ addr_bits inp i spb ref ∧ addr_bits inp i spb ref ≤ 1023 := by
  rw [addr_bits_eq_sum]
  constructor
  · apply Finset.sum_nonneg
    intro j _
    split <;> positivity
  · calc ∑ j in Finset.range 10, (if address inp i spb ref j = 3 then (0 : ℤ) else 2 ^ j)
        ≤ ∑ j in Finset.range 10, (2 : ℤ) ^ j := by
          apply Finset.sum_le_sum
          intro j _
          split
          · positivity
          · exact le_refl _
      _ = 1023 := by decide

theorem switch_bits_bounds (inp : ℤ → ℚ) (i : ℤ) (spb ref : ℚ) :
    0 ≤ switch_bits inp i spb ref ∧ switch_bits inp i spb ref ≤ 255 := by
  rw [switch_bits_eq_sum]
  constructor
  · apply Finset.sum_nonneg
    intro j _
    split <;> positivity
  · calc ∑ j in Finset.range 8, (if switches inp i spb ref j = 1 then (0 : ℤ) else 2 ^ j)
        ≤ ∑ j in Finset.range 8, (2 : ℤ) ^ j := by
          apply Finset.sum_le_sum
          intro j _
          split
          · positivity
          · exact le_refl _
      _ = 255 := by decide

/-- C4. Every message that an invocation of `work` posts carries an address value in
`0..1023` and a switch value in `0..255`. -/
theorem posted_fields_bounded (fuel : ℕ) (self : keyfob_msg) (inp : ℤ → ℚ)
    (noutput_items : ℤ) (res : WorkResult) (m : Message)
    (h : work fuel self inp noutput_items = some res) (hm : m ∈ res.posted) :
    (0 ≤ m.addr_bits ∧ m.addr_bits ≤ 1023) ∧ (0 ≤ m.switch_bits ∧ m.switch_bits ≤ 255) := by
  refine work_loop_invariant inp noutput_items
    (fun _ posted => ∀ m ∈ posted,
      (0 ≤ m.addr_bits ∧ m.addr_bits ≤ 1023) ∧ (0 ≤ m.switch_bits ∧ m.switch_bits ≤ 255))
    ?_ fuel self [] 0 res (by simp) h m hm
  intro fuel self posted i r hI hr m hm
  rcases List.mem_append.mp hm with hm | hm
  · exact hI m hm
  · rcases work_body_cases fuel self inp i r hr with ⟨-, e⟩ | ⟨c, tb, tspb, -, -, -, ⟨-, e⟩ | ⟨-, e⟩⟩
    · rw [e] at hm; cases hm
    · rw [e] at hm; cases hm
    · subst e
      simp only [List.mem_singleton] at hm
      subst hm
      exact ⟨addr_bits_bounds _ _ _ _, switch_bits_bounds _ _ _ _⟩

/-- Witness for C4: `work` over the first 11 samples of the test vector posts the test
message. -/
theorem posted_fields_bounded_witness :
    (work 20 (keyfob_make_msg 24000 1) test_window 11
        = some { self := keyfob_make_msg 24000 1, posted := [test_message], ret := 1296 } ∧
      test_message ∈ [test_message]) ∧
    ((0 ≤ test_message.addr_bits ∧ test_message.addr_bits ≤ 1023) ∧
      (0 ≤ test_message.switch_bits ∧ test_message.switch_bits ≤ 255)) :=
  ⟨⟨by decide!, by decide!⟩,
    posted_fields_bounded 20 (keyfob_make_msg 24000 1) test_window 11
      { self := keyfob_make_msg 24000 1, posted := [test_message], ret := 1296 } test_message
      (by decide!) (by decide!)⟩

theorem sumFor_eq_sum (lo hi : ℤ) (f : ℤ → ℚ) (acc : ℚ) :
    sumFor lo hi f acc = acc + ∑ k in Finset.range (hi - lo).toNat, f (lo + (k : ℤ)) := by
  unfold sumFor
  generalize (hi - lo).toNat = n
  induction n with
  | zero => simp
  | succ k ih => rw [List.range_succ, List.foldl_append, ih, Finset.sum_range_succ]; simp [add_assoc]

/-- What `bit_energy` computes for a chip wider than two samples: the sum of the
`2*(w/2) - 1` samples at offsets `1 - w/2 .. w/2 - 1` around the centre. -/
theorem bit_energy_wide (data : ℤ → ℚ) (c w : ℤ) (hw : 2 < w) :
    bit_energy data c w =
      ∑ k in Finset.range (2 * (w / 2) - 1).toNat, data (c + (1 - w / 2 + (k : ℤ))) := by
  unfold bit_energy
  rw [if_neg (by omega), sumFor_eq_sum, zero_add]
  have e : w.tdiv 2 = w / 2 := Int.tdiv_eq_ediv (by omega) (by omega)
  rw [e]
  have e2 : w / 2 - (1 - w / 2) = 2 * (w / 2) - 1 := by ring
  rw [e2]

theorem bit_energy_narrow (data : ℤ → ℚ) (c w : ℤ) (hw : w ≤ 2) :
    bit_energy data c w = data c := by
  unfold bit_energy
  rw [if_pos hw]

/-- C8, evaluated at a failing input. For `samples_per_chip = 4` and centre 0 the claimed
window is the four samples at indices `-1..2`; `bit_energy` stops at index 1 and misses the
sample at index 2 (and for `samples_per_chip = 5` it sums indices `-1..1`, not `-2..2`). -/
theorem bit_energy_drops_right_sample :
    bit_energy spike_window 0 4 = 0 ∧ (∑ x in Finset.Icc (0 - 2 + 1 : ℤ) (0 + 2), spike_window x) = 1 ∧
    bit_energy spike_window 0 5 = 0 ∧ (∑ x in Finset.Icc (0 - 2 : ℤ) (0 + 2), spike_window x) = 1 ∧
    bit_energy spike_window 2 2 = spike_window 2 := by
  refine ⟨by decide!, by decide!, by decide!, by decide!, by decide!⟩

/-- C9. `early_late`: with `E`, `N`, `L` the chip energies centred at `c-1`, `c`, `c+1`,
the result is `-1` if `E > N`, `+1` if `E ≤ N` and `L > N`, and `0` otherwise; so it is
always one of `-1, 0, +1`, it is `-1` whenever the early gate exceeds `N` (also when the
late gate does too), and it is `0` exactly when neither neighbour exceeds `N`. -/
theorem early_late_spec (data : ℤ → ℚ) (c w : ℤ) :
    early_late data c w =
        (if bit_energy data (c - 1) w > bit_energy data c w then -1
         else if bit_energy data (c - 1) w ≤ bit_energy data c w ∧
                 bit_energy data (c + 1) w > bit_energy data c w then 1
         else 0) ∧
    (early_late data c w = -1 ∨ early_late data c w = 0 ∨ early_late data c w = 1) ∧
    (early_late data c w = -1 ↔ bit_energy data (c - 1) w > bit_energy data c w) ∧
    (early_late data c w = 1 ↔
      bit_energy data (c - 1) w ≤ bit_energy data c w ∧
        bit_energy data (c + 1) w > bit_energy data c w) ∧
    (early_late data c w = 0 ↔
      ¬ bit_energy data (c - 1) w > bit_energy data c w ∧
        ¬ bit_energy data (c + 1) w > bit_energy data c w) := by
  unfold early_late
  rw [add_zero, ← sub_eq_add_neg]
  dsimp only
  generalize bit_energy data (c - 1) w = E
  generalize bit_energy data c w = N
  generalize bit_energy data (c + 1) w = L
  by_cases h1 : E > N
  · simp [h1]
  · by_cases h2 : L > N
    · simp [h1, h2, not_lt.mp h1]
    · simp [h1, h2, not_lt.mp h1, not_lt.mp h2]

theorem work_body_idle (fuel : ℕ) (self : keyfob_msg) (inp : ℤ → ℚ) (i : ℤ)
    (h : preamble_candidate self inp i = false) :
    work_body fuel self inp i = some { self := self, posted := [], i := i } := by
  unfold work_body
  simp [h]

theorem preamble_candidate_below_threshold (self : keyfob_msg) (inp : ℤ → ℚ) (i : ℤ)
    (h : ¬ inp i > self.d_threshold) : preamble_candidate self inp i = false := by
  unfold preamble_candidate
  rw [if_neg h]

theorem work_loop_idle (self : keyfob_msg) (inp : ℤ → ℚ) (noutput_items : ℤ)
    (posted : List Message)
    (h : ∀ i, 0 ≤ i → i < noutput_items → preamble_candidate self inp i = false) :
    ∀ (k fuel : ℕ) (i : ℤ), 0 ≤ i → i + k = noutput_items → k < fuel →
      work_loop inp noutput_items fuel self posted i
        = some { self := self, posted := posted, ret := noutput_items } := by
  intro k
  induction k with
  | zero =>
    intro fuel i _ hk hf
    obtain ⟨f, rfl⟩ : ∃ f, fuel = f + 1 := ⟨fuel - 1, by omega⟩
    unfold work_loop
    have : ¬ i < noutput_items := by simp at hk; omega
    rw [if_neg this]
    simp at hk
    rw [hk]
  | succ k ih =>
    intro fuel i hi hk hf
    obtain ⟨f, rfl⟩ : ∃ f, fuel = f + 1 := ⟨fuel - 1, by omega⟩
    unfold work_loop
    have hlt : i < noutput_items := by push_cast at hk; omega
    rw [if_pos hlt, work_body_idle f self inp i (h i hi hlt)]
    simp only [List.append_nil]
    exact ih f (i + 1) (by omega) (by push_cast at hk ⊢; omega) (by omega)

/-- C6. If no sample at an index in `0..n-1` exceeds the threshold, or no index in
`0..n-1` passes the preamble check, then `work` with `noutput_items = n ≥ 0` terminates
(any fuel above `n` is enough), posts nothing, leaves the object (bit rate and samples per
bit included) unchanged and returns exactly `n`; each pass through the loop body leaves the
scan index where it was, so the scan advances by exactly one sample per step. -/
theorem work_no_candidate (self : keyfob_msg) (inp : ℤ → ℚ) (n : ℤ) (fuel : ℕ)
    (hn : 0 ≤ n) (hfuel : n < fuel)
    (h : (∀ i, 0 ≤ i → i < n → ¬ inp i > self.d_threshold) ∨
         (∀ i, 0 ≤ i → i < n → preamble_candidate self inp i = false)) :
    work fuel self inp n = some { self := self, posted := [], ret := n } ∧
    ∀ i, 0 ≤ i → i < n → ∀ f,
      work_body f self inp i = some { self := self, posted := [], i := i } := by
  have h' : ∀ i, 0 ≤ i → i < n → preamble_candidate self inp i = false := by
    rcases h with h | h
    · exact fun i h0 h1 => preamble_candidate_below_threshold self inp i (h i h0 h1)
    · exact h
  refine ⟨?_, fun i h0 h1 f => work_body_idle f self inp i (h' i h0 h1)⟩
  unfold work
  exact work_loop_idle self inp n [] h' n.toNat fuel 0 (le_refl 0)
    (by rw [Int.toNat_of_nonneg hn]; ring) (by omega)

/-- Witness for C6: five samples of silence under threshold 1. -/
theorem work_no_candidate_witness :
    ((0 : ℤ) ≤ 5 ∧ (5 : ℤ) < ((6 : ℕ) : ℤ) ∧
      ((∀ i : ℤ, 0 ≤ i → i < 5 → ¬ (fun _ => (0 : ℚ)) i > (keyfob_make_msg 24000 1).d_threshold) ∨
        (∀ i : ℤ, 0 ≤ i → i < 5 →
          preamble_candidate (keyfob_make_msg 24000 1) (fun _ => 0) i = false))) ∧
    (work 6 (keyfob_make_msg 24000 1) (fun _ => 0) 5
        = some { self := keyfob_make_msg 24000 1, posted := [], ret := 5 } ∧
      ∀ i : ℤ, 0 ≤ i → i < 5 → ∀ f,
        work_body f (keyfob_make_msg 24000 1) (fun _ => 0) i
          = some { self := keyfob_make_msg 24000 1, posted := [], i := i }) :=
  have hq : ∀ i : ℤ, 0 ≤ i → i < 5 →
      ¬ (fun _ => (0 : ℚ)) i > (keyfob_make_msg 24000 1).d_threshold :=
    fun _ _ _ => by
      show ¬ ((0 : ℚ) > (keyfob_make_msg 24000 1).d_threshold)
      decide!
  ⟨⟨by decide, by decide, Or.inl hq⟩,
    work_no_candidate (keyfob_make_msg 24000 1) (fun _ => 0) 5 6 (by decide) (by decide)
      (Or.inl hq)⟩

/-- A rate search that ends (by `break`) ends at a rate inside the bounds, with the
samples per bit that belong to it. -/
theorem rate_search_in_bounds (self : keyfob_msg) (inp : ℤ → ℚ) (i : ℤ) :
    ∀ (fuel : ℕ) (tb tspb tb' tspb' : ℚ),
      rate_search self inp i fuel tb tspb = some (tb', tspb') →
      tspb = self.d_rate / tb →
      self.d_bitrate_min ≤ tb' ∧ tb' ≤ self.d_bitrate_max ∧ tspb' = self.d_rate / tb' := by
  intro fuel
  induction fuel with
  | zero => intro tb tspb tb' tspb' h; simp [rate_search] at h
  | succ k ih =>
    intro tb tspb tb' tspb' h hs
    unfold rate_search at h
    split at h
    · exact ih _ _ _ _ h hs
    · next hmax =>
      split at h
      · exact ih _ _ _ _ h hs
      · next hmin =>
        dsimp only at h
        split at h
        · simp only [Option.some.injEq, Prod.mk.injEq] at h
          obtain ⟨rfl, rfl⟩ := h
          exact ⟨not_lt.mp hmin, not_lt.mp hmax, hs⟩
        · exact ih _ _ _ _ h rfl

theorem work_body_invariant (fuel : ℕ) (self : keyfob_msg) (inp : ℤ → ℚ) (i : ℤ)
    (r : BodyResult) (hI : bit_clock_invariant self)
    (h : work_body fuel self inp i = some r) : bit_clock_invariant r.self := by
  rcases work_body_cases fuel self inp i r h with
    ⟨-, e⟩ | ⟨c, tb, tspb, -, -, hr, ⟨-, e⟩ | ⟨-, e⟩⟩
  · rw [e]; exact hI
  · rw [e]; exact hI
  · rw [e]
    exact rate_search_in_bounds self inp c fuel _ _ _ _ hr hI.2.2

/-- C10. The Bit-Clock State invariant (`bitrateMin ≤ bitrate ≤ bitrateMax` and
`samplesPerBit = sampleRate / bitrate`) holds of a freshly constructed decoder, is
preserved by every terminating invocation of `work`, and every rate at which a rate search
stops (the rate that is committed) lies in `[bitrateMin, bitrateMax]`. -/
theorem bit_clock_invariant_preserved (rate threshold : ℚ) (fuel : ℕ) (self : keyfob_msg)
    (inp : ℤ → ℚ) (noutput_items : ℤ) (res : WorkResult)
    (hI : bit_clock_invariant self) (h : work fuel self inp noutput_items = some res) :
    bit_clock_invariant (keyfob_make_msg rate threshold) ∧
    bit_clock_invariant res.self ∧
    ∀ (f : ℕ) (temp_bitrate temp_spb : ℚ) (c : ℤ),
      rate_search self inp c f self.d_bitrate self.d_samples_per_bit
        = some (temp_bitrate, temp_spb) →
      self.d_bitrate_min ≤ temp_bitrate ∧ temp_bitrate ≤ self.d_bitrate_max ∧
        temp_spb = self.d_rate / temp_bitrate := by
  refine ⟨⟨by norm_num [keyfob_make_msg], by norm_num [keyfob_make_msg], rfl⟩, ?_, ?_⟩
  · exact work_loop_invariant inp noutput_items (fun s _ => bit_clock_invariant s)
      (fun f s _ i r hs hr => work_body_invariant f s inp i r hs hr) fuel self [] 0 res hI h
  · intro f tb tspb c hr
    exact rate_search_in_bounds self inp c f _ _ _ _ hr hI.2.2

/-- Witness for C10: the invocation of `work` that decodes the test vector. -/
theorem bit_clock_invariant_preserved_witness :
    (bit_clock_invariant (keyfob_make_msg 24000 1) ∧
      work 20 (keyfob_make_msg 24000 1) test_window 11
        = some { self := keyfob_make_msg 24000 1, posted := [test_message], ret := 1296 }) ∧
    (bit_clock_invariant (keyfob_make_msg 48000 2) ∧
      bit_clock_invariant (keyfob_make_msg 24000 1) ∧
      ∀ (f : ℕ) (temp_bitrate temp_spb : ℚ) (c : ℤ),
        rate_search (keyfob_make_msg 24000 1) test_window c f
            (keyfob_make_msg 24000 1).d_bitrate (keyfob_make_msg 24000 1).d_samples_per_bit
          = some (temp_bitrate, temp_spb) →
        (keyfob_make_msg 24000 1).d_bitrate_min ≤ temp_bitrate ∧
          temp_bitrate ≤ (keyfob_make_msg 24000 1).d_bitrate_max ∧
          temp_spb = (keyfob_make_msg 24000 1).d_rate / temp_bitrate) :=
  have hI : bit_clock_invariant (keyfob_make_msg 24000 1) :=
    ⟨by decide!, by decide!, by decide!⟩
  ⟨⟨hI, by decide!⟩,
    bit_clock_invariant_preserved 48000 2 20 (keyfob_make_msg 24000 1) test_window 11
      { self := keyfob_make_msg 24000 1, posted := [test_message], ret := 1296 } hI
      (by decide!)⟩

/-! ### The encoded test stream -/

theorem packet_stream_before (A : ℚ) (p : ℤ) (data : ℕ → Bool) (x : ℤ) (h : x < p) :
    packet_stream A p data x = 0 := by
  unfold packet_stream
  rw [if_pos h]

theorem packet_stream_chip (A : ℚ) (p : ℤ) (data : ℕ → Bool) (c : ℕ) (r : ℤ)
    (h0 : 0 ≤ r) (h1 : r < 10) :
    packet_stream A p data (p + 10 * c + r) = if packet_chip data c then A else 0 := by
  unfold packet_stream
  rw [if_neg (by omega)]
  have e : ((p + 10 * (c : ℤ) + r - p) / 10).toNat = c := by
    have : (p + 10 * (c : ℤ) + r - p) / 10 = c := by omega
    rw [this, Int.toNat_natCast]
  rw [e]

theorem packet_stream_after (A : ℚ) (p : ℤ) (data : ℕ → Bool) (x : ℤ) (h : p + 1210 ≤ x) :
    packet_stream A p data x = 0 := by
  unfold packet_stream
  rw [if_neg (by omega)]
  have e : 121 ≤ ((x - p) / 10).toNat := by omega
  have : packet_chip data ((x - p) / 10).toNat = false := by
    unfold packet_chip
    rw [if_neg (by omega), if_neg (by omega)]
  rw [this]
  simp

theorem packet_stream_nonneg (A : ℚ) (p : ℤ) (data : ℕ → Bool) (x : ℤ) (hA : 0 ≤ A) :
    0 ≤ packet_stream A p data x := by
  unfold packet_stream
  split
  · exact le_refl 0
  · split
    · exact hA
    · exact le_refl 0

theorem packet_stream_le (A : ℚ) (p : ℤ) (data : ℕ → Bool) (x : ℤ) (hA : 0 ≤ A) :
    packet_stream A p data x ≤ A := by
  unfold packet_stream
  split
  · exact hA
  · split
    · exact le_refl A
    · exact hA

theorem packet_chip_zero_slot (data : ℕ → Bool) (k : ℕ) (hk : k < 36) :
    packet_chip data (13 + 3 * k) = false := by
  unfold packet_chip
  rw [if_neg (by omega), if_pos (by omega), if_pos (by omega)]

theorem packet_chip_data_slot (data : ℕ → Bool) (k : ℕ) (hk : k < 36) :
    packet_chip data (14 + 3 * k) = data k := by
  unfold packet_chip
  rw [if_neg (by omega), if_pos (by omega), if_neg (by omega), if_pos (by omega)]
  congr 1
  omega

theorem packet_chip_one_slot (data : ℕ → Bool) (k : ℕ) (hk : k < 36) :
    packet_chip data (15 + 3 * k) = true := by
  unfold packet_chip
  rw [if_neg (by omega), if_pos (by omega), if_neg (by omega), if_neg (by omega)]

theorem packet_chip_preamble (data : ℕ → Bool) (c : ℕ) (hc : c < 13) :
    packet_chip data c = preamble_data.getD c false := by
  unfold packet_chip
  rw [if_pos hc]

/-- The nine samples `bit_energy` adds up for a chip width of ten. -/
theorem bit_energy_ten (data : ℤ → ℚ) (c : ℤ) :
    bit_energy data c 10 =
      data (c - 4) + data (c - 3) + data (c - 2) + data (c - 1) + data c + data (c + 1) +
        data (c + 2) + data (c + 3) + data (c + 4) := by
  rw [bit_energy_wide data c 10 (by decide)]
  have e : (2 * ((10 : ℤ) / 2) - 1).toNat = 9 := by decide
  rw [e]
  simp only [Finset.sum_range_succ, Finset.sum_range_zero, zero_add]
  have e1 : ((10 : ℤ) / 2) = 5 := by decide
  rw [e1]
  norm_num [sub_eq_add_neg]

theorem packet_stream_in_chip (A : ℚ) (p : ℤ) (data : ℕ → Bool) (c : ℕ) (x : ℤ)
    (h0 : p + 10 * c ≤ x) (h1 : x < p + 10 * c + 10) :
    packet_stream A p data x = if packet_chip data c then A else 0 := by
  have e : x = p + 10 * c + (x - (p + 10 * c)) := by ring
  rw [e]
  exact packet_stream_chip A p data c _ (by omega) (by omega)

theorem packet_stream_first_chip (A : ℚ) (p : ℤ) (data : ℕ → Bool) (x : ℤ)
    (h0 : p ≤ x) (h1 : x < p + 10) : packet_stream A p data x = A := by
  rw [packet_stream_in_chip A p data 0 x (by simpa using h0) (by simpa using h1),
    packet_chip_preamble data 0 (by decide)]
  rfl

/-- Chip energy on the rising edge of the first preamble pulse. -/
theorem packet_energy_ramp (A : ℚ) (p : ℤ) (data : ℕ → Bool) (k : ℤ)
    (h0 : -1 ≤ k) (h1 : k ≤ 3) :
    bit_energy (packet_stream A p data) (p + k) 10 = (5 + k) * A := by
  rw [bit_energy_ten]
  interval_cases k <;>
    simp (disch := omega) only [packet_stream_before, packet_stream_first_chip] <;>
    push_cast <;> ring

/-- Chip energy at either of the two centre samples of a chip. -/
theorem packet_energy_center (A : ℚ) (p : ℤ) (data : ℕ → Bool) (c : ℕ) (x : ℤ)
    (h0 : p + 10 * c + 4 ≤ x) (h1 : x ≤ p + 10 * c + 5) :
    bit_energy (packet_stream A p data) x 10 = if packet_chip data c then 9 * A else 0 := by
  rw [bit_energy_ten]
  simp (disch := omega) only [packet_stream_in_chip A p data c]
  split <;> ring

theorem foldl_pair_eq_sum (f g : ℕ → ℚ) (n : ℕ) (a b : ℚ) :
    (List.range n).foldl (fun (acc : ℚ × ℚ) (i : ℕ) => (acc.1 + f i, acc.2 + g i)) (a, b) =
      (a + ∑ i in Finset.range n, f i, b + ∑ i in Finset.range n, g i) := by
  induction n with
  | zero => simp
  | succ k ih =>
    rw [List.range_succ, List.foldl_append, ih, Finset.sum_range_succ, Finset.sum_range_succ]
    simp [add_assoc]

/-- The discriminant `get_energy_diff` as a difference of two sums over the 36 symbols. -/
theorem get_energy_diff_eq_sum (data : ℤ → ℚ) (c : ℤ) (spb : ℚ) :
    get_energy_diff data c spb =
      (∑ i in Finset.range 36,
          bit_energy data (c + truncQ (spb * ((15 + 3 * i : ℤ) : ℚ))) (truncQ spb)) -
      (∑ i in Finset.range 36,
          bit_energy data (c + truncQ (spb * ((13 + 3 * i : ℤ) : ℚ))) (truncQ spb)) := by
  unfold get_energy_diff
  dsimp only
  rw [foldl_pair_eq_sum]
  simp only [zero_add]

theorem bit_energy_nonneg (data : ℤ → ℚ) (c w : ℤ) (h : ∀ x, 0 ≤ data x) :
    0 ≤ bit_energy data c w := by
  unfold bit_energy
  split
  · exact h c
  · rw [sumFor_eq_sum, zero_add]
    exact Finset.sum_nonneg (fun k _ => h _)

theorem bit_energy_le (data : ℤ → ℚ) (c w : ℤ) (A : ℚ) (hw : 2 < w)
    (h : ∀ x, data x ≤ A) :
    bit_energy data c w ≤ ((2 * (w / 2) - 1).toNat : ℚ) * A := by
  rw [bit_energy_wide data c w hw]
  calc ∑ k in Finset.range (2 * (w / 2) - 1).toNat, data (c + (1 - w / 2 + (k : ℤ)))
      ≤ ∑ _k in Finset.range (2 * (w / 2) - 1).toNat, A := Finset.sum_le_sum (fun k _ => h _)
    _ = ((2 * (w / 2) - 1).toNat : ℚ) * A := by simp

theorem get_energy_diff_le (data : ℤ → ℚ) (c : ℤ) (spb A : ℚ) (hw : 2 < truncQ spb)
    (h0 : ∀ x, 0 ≤ data x) (h1 : ∀ x, data x ≤ A) :
    get_energy_diff data c spb ≤ 36 * (((2 * (truncQ spb / 2) - 1).toNat : ℚ) * A) := by
  rw [get_energy_diff_eq_sum]
  have hz : 0 ≤ ∑ i in Finset.range 36,
      bit_energy data (c + truncQ (spb * ((13 + 3 * i : ℤ) : ℚ))) (truncQ spb) :=
    Finset.sum_nonneg (fun i _ => bit_energy_nonneg data _ _ h0)
  have ho : ∑ i in Finset.range 36,
      bit_energy data (c + truncQ (spb * ((15 + 3 * i : ℤ) : ℚ))) (truncQ spb)
      ≤ ∑ _i in Finset.range 36, ((2 * (truncQ spb / 2) - 1).toNat : ℚ) * A :=
    Finset.sum_le_sum (fun i _ => bit_energy_le data _ _ A hw h1)
  have e : ∑ _i in Finset.range 36, ((2 * (truncQ spb / 2) - 1).toNat : ℚ) * A
      = 36 * (((2 * (truncQ spb / 2) - 1).toNat : ℚ) * A) := by simp
  linarith

theorem packet_energy_diff_locked (A : ℚ) (p : ℤ) (data : ℕ → Bool) :
    get_energy_diff (packet_stream A p data) (p + 5) ((10 : ℤ) : ℚ) = 324 * A := by
  rw [get_energy_diff_eq_sum]
  have h1 : ∀ i ∈ Finset.range 36,
      bit_energy (packet_stream A p data)
        (p + 5 + truncQ (((10 : ℤ) : ℚ) * ((15 + 3 * i : ℤ) : ℚ))) (truncQ ((10 : ℤ) : ℚ))
        = 9 * A := by
    intro i hi
    rw [truncQ_int_mul, truncQ_intCast,
      packet_energy_center A p data (15 + 3 * i) _ (by push_cast; omega) (by push_cast; omega),
      packet_chip_one_slot data i (Finset.mem_range.mp hi)]
    rfl
  have h0 : ∀ i ∈ Finset.range 36,
      bit_energy (packet_stream A p data)
        (p + 5 + truncQ (((10 : ℤ) : ℚ) * ((13 + 3 * i : ℤ) : ℚ))) (truncQ ((10 : ℤ) : ℚ))
        = 0 := by
    intro i hi
    rw [truncQ_int_mul, truncQ_intCast,
      packet_energy_center A p data (13 + 3 * i) _ (by push_cast; omega) (by push_cast; omega),
      packet_chip_zero_slot data i (Finset.mem_range.mp hi)]
    rfl
  rw [Finset.sum_congr rfl h1, Finset.sum_congr rfl h0]
  simp
  ring

/-- On the test stream, locked at the centre of the first pulse, the rate search sees a
maximum at 2400. -/
theorem packet_clock_rate_dir (A t : ℚ) (p : ℤ) (data : ℕ → Bool) (hA : 0 < A) :
    get_clock_rate_dir (keyfob_make_msg 24000 t) (packet_stream A p data) (p + 5) 2400 = 0 := by
  unfold get_clock_rate_dir
  have e0 : (keyfob_make_msg 24000 t).d_rate / 2400 = ((10 : ℤ) : ℚ) := by
    norm_num [keyfob_make_msg]
  have hprev : truncQ ((keyfob_make_msg 24000 t).d_rate /
      (2400 - (keyfob_make_msg 24000 t).d_bitrate_step)) = 10 := by
    have : (keyfob_make_msg 24000 t).d_rate /
      (2400 - (keyfob_make_msg 24000 t).d_bitrate_step) = 24000 / 2380 := by
      norm_num [keyfob_make_msg]
    rw [this]
    decide!
  have hnext : truncQ ((keyfob_make_msg 24000 t).d_rate /
      (2400 + (keyfob_make_msg 24000 t).d_bitrate_step)) = 9 := by
    have : (keyfob_make_msg 24000 t).d_rate /
      (2400 + (keyfob_make_msg 24000 t).d_bitrate_step) = 24000 / 2420 := by
      norm_num [keyfob_make_msg]
    rw [this]
    decide!
  have b1 := get_energy_diff_le (packet_stream A p data) (p + 5)
    ((keyfob_make_msg 24000 t).d_rate / (2400 - (keyfob_make_msg 24000 t).d_bitrate_step)) A
    (by rw [hprev]; decide) (fun x => packet_stream_nonneg A p data x hA.le)
    (fun x => packet_stream_le A p data x hA.le)
  have b2 := get_energy_diff_le (packet_stream A p data) (p + 5)
    ((keyfob_make_msg 24000 t).d_rate / (2400 + (keyfob_make_msg 24000 t).d_bitrate_step)) A
    (by rw [hnext]; decide) (fun x => packet_stream_nonneg A p data x hA.le)
    (fun x => packet_stream_le A p data x hA.le)
  rw [hprev] at b1
  rw [hnext] at b2
  have c1 : (((2 * ((10 : ℤ) / 2) - 1).toNat : ℕ) : ℚ) = 9 := by
    have : (2 * ((10 : ℤ) / 2) - 1).toNat = 9 := by decide
    rw [this]; norm_num
  have c2 : (((2 * ((9 : ℤ) / 2) - 1).toNat : ℕ) : ℚ) = 7 := by
    have : (2 * ((9 : ℤ) / 2) - 1).toNat = 7 := by decide
    rw [this]; norm_num
  rw [c1] at b1
  rw [c2] at b2
  dsimp only
  rw [e0, packet_energy_diff_locked]
  rw [if_neg (by linarith), if_neg (by linarith)]

theorem packet_rate_search (A t : ℚ) (p : ℤ) (data : ℕ → Bool) (hA : 0 < A) (fuel : ℕ) :
    rate_search (keyfob_make_msg 24000 t) (packet_stream A p data) (p + 5) (fuel + 1)
        (keyfob_make_msg 24000 t).d_bitrate (keyfob_make_msg 24000 t).d_samples_per_bit
      = some (2400, 10) := by
  have e1 : (keyfob_make_msg 24000 t).d_bitrate = 2400 := rfl
  have e2 : (keyfob_make_msg 24000 t).d_samples_per_bit = 10 := by
    norm_num [keyfob_make_msg]
  rw [e1, e2]
  unfold rate_search
  have m1 : ¬ (2400 : ℚ) > (keyfob_make_msg 24000 t).d_bitrate_max := by
    norm_num [keyfob_make_msg]
  have m2 : ¬ (2400 : ℚ) < (keyfob_make_msg 24000 t).d_bitrate_min := by
    norm_num [keyfob_make_msg]
  rw [if_neg m1, if_neg m2]
  dsimp only
  rw [packet_clock_rate_dir A t p data hA, if_pos rfl]

theorem packet_bit_center (A : ℚ) (p : ℤ) (data : ℕ → Bool) (hA : 0 < A) (fuel : ℕ) :
    bit_center (fuel + 5) (packet_stream A p data) 10 p = some (p + 5) := by
  have late : ∀ k : ℤ, 0 ≤ k → k ≤ 3 →
      early_late (packet_stream A p data) (p + k) 10 > 0 := by
    intro k h0 h1
    unfold early_late
    have a1 : p + k + -1 = p + (k - 1) := by ring
    have a2 : p + k + 0 = p + k := by ring
    have a3 : p + k + 1 = p + (k + 1) := by ring
    rw [a1, a2, a3]
    have hN := packet_energy_ramp A p data k (by omega) h1
    have hE := packet_energy_ramp A p data (k - 1) (by omega) (by omega)
    have hL : bit_energy (packet_stream A p data) (p + (k + 1)) 10 = (5 + (k + 1)) * A := by
      rcases (by omega : k + 1 ≤ 3 ∨ k = 3) with h | h
      · have := packet_energy_ramp A p data (k + 1) (by omega) h
        rw [this]; push_cast; ring
      · subst h
        have hc : preamble_data.getD 0 false = true := rfl
        rw [packet_energy_center A p data 0 (p + (3 + 1)) (by simp) (by simp),
          packet_chip_preamble data 0 (by decide), hc, if_pos rfl]
        push_cast
        ring
    dsimp only
    rw [hN, hE, hL]
    have hk : ((k - 1 : ℤ) : ℚ) = (k : ℚ) - 1 := by push_cast; ring
    rw [hk]
    rw [if_neg (by nlinarith), if_pos (by nlinarith)]
    decide
  have stop : ¬ early_late (packet_stream A p data) (p + 4) 10 > 0 := by
    unfold early_late
    have a1 : p + 4 + -1 = p + 3 := by ring
    have a2 : p + 4 + 0 = p + 4 := by ring
    have a3 : p + 4 + 1 = p + 5 := by ring
    rw [a1, a2, a3]
    have hE := packet_energy_ramp A p data 3 (by decide) (by decide)
    have hN := packet_energy_center A p data 0 (p + 4) (by simp) (by simp)
    have hL := packet_energy_center A p data 0 (p + 5) (by simp) (by simp)
    have hc : preamble_data.getD 0 false = true := rfl
    rw [packet_chip_preamble data 0 (by decide), hc, if_pos rfl] at hN hL
    dsimp only
    rw [hE, hN, hL]
    push_cast
    rw [if_neg (by nlinarith), if_neg (by nlinarith)]
    decide
  have s0 := late 0 (by decide) (by decide)
  have s1 := late 1 (by decide) (by decide)
  have s2 := late 2 (by decide) (by decide)
  have s3 := late 3 (by decide) (by decide)
  rw [add_zero] at s0
  have e1 : p + 1 + 1 = p + 2 := by ring
  have e2 : p + 2 + 1 = p + 3 := by ring
  have e3 : p + 3 + 1 = p + 4 := by ring
  have e4 : p + 4 + 1 = p + 5 := by ring
  show bit_center (fuel + 4 + 1) (packet_stream A p data) 10 p = some (p + 5)
  unfold bit_center
  rw [if_pos s0]
  show bit_center (fuel + 3 + 1) (packet_stream A p data) 10 (p + 1) = some (p + 5)
  unfold bit_center
  rw [if_pos s1, e1]
  show bit_center (fuel + 2 + 1) (packet_stream A p data) 10 (p + 2) = some (p + 5)
  unfold bit_center
  rw [if_pos s2, e2]
  show bit_center (fuel + 1 + 1) (packet_stream A p data) 10 (p + 3) = some (p + 5)
  unfold bit_center
  rw [if_pos s3, e3]
  unfold bit_center
  rw [if_neg stop, e4]

theorem make_msg_samples_per_bit (t : ℚ) :
    (keyfob_make_msg 24000 t).d_samples_per_bit = ((10 : ℤ) : ℚ) := by
  norm_num [keyfob_make_msg]

theorem packet_preamble_candidate (A t : ℚ) (p : ℤ) (data : ℕ → Bool)
    (hA : 0 < A) (ht : t < A) :
    preamble_candidate (keyfob_make_msg 24000 t) (packet_stream A p data) p = true := by
  rw [preamble_candidate_iff_trunc]
  have hp : packet_stream A p data p = A :=
    packet_stream_first_chip A p data p (le_refl p) (by omega)
  have hp1 : packet_stream A p data (p + 1) = A :=
    packet_stream_first_chip A p data (p + 1) (by omega) (by omega)
  rw [hp, hp1]
  refine ⟨ht, le_refl A, fun j h1 h2 => ?_⟩
  rw [make_msg_samples_per_bit, truncQ_int_mul,
    packet_stream_in_chip A p data j (p + 10 * j) (le_refl _) (by omega),
    packet_chip_preamble data j (by omega)]
  generalize preamble_data.getD j false = pb
  cases pb
  · simp only [Bool.false_eq_true, if_false]
    linarith
  · simp only [if_true]
    constructor <;> linarith

theorem packet_its_on (A : ℚ) (p : ℤ) (data : ℕ → Bool) (hA : 0 < A) :
    its_on (packet_stream A p data) (p + 5) 10 (A / 2) = true := by
  rw [its_on_eq_all]
  intro j hj
  have e : (10 : ℚ) = ((10 : ℤ) : ℚ) := by norm_num
  rw [e, truncQ_int_mul, truncQ_int_mul,
    packet_stream_in_chip A p data (13 + 3 * j) _ (by push_cast; omega) (by push_cast; omega),
    packet_stream_in_chip A p data (15 + 3 * j) _ (by push_cast; omega) (by push_cast; omega),
    packet_chip_zero_slot data j hj, packet_chip_one_slot data j hj]
  simp only [Bool.false_eq_true, if_false, if_true]
  constructor <;> linarith

/-- A number below `2^n` is the sum of the weights of its set bits. -/
theorem sum_testBit (n : ℕ) : ∀ a : ℕ, a < 2 ^ n →
    ∑ j in Finset.range n, (if a.testBit j = false then (0 : ℤ) else 2 ^ j) = a := by
  induction n with
  | zero =>
    intro a ha
    simp at ha
    simp [ha]
  | succ k ih =>
    intro a ha
    rw [Finset.sum_range_succ']
    have h2 : a / 2 < 2 ^ k := by
      rw [pow_succ] at ha
      omega
    have hs : ∀ j ∈ Finset.range k,
        (if a.testBit (j + 1) = false then (0 : ℤ) else 2 ^ (j + 1))
          = 2 * (if (a / 2).testBit j = false then (0 : ℤ) else 2 ^ j) := by
      intro j _
      rw [Nat.testBit_succ]
      split
      · simp
      · ring
    rw [Finset.sum_congr rfl hs, ← Finset.mul_sum, ih (a / 2) h2]
    have h0 : (if a.testBit 0 = false then (0 : ℤ) else 2 ^ 0) = ((a % 2 : ℕ) : ℤ) := by
      rw [Nat.testBit_zero]
      rcases Nat.mod_two_eq_zero_or_one a with h | h <;> simp [h]
    rw [h0]
    have := Nat.div_add_mod a 2
    omega

/-- Slicing a data chip of the test stream against the reference level `A/2`. -/
theorem packet_data_sample (A : ℚ) (p : ℤ) (data : ℕ → Bool) (hA : 0 < A) (k : ℕ) (c : ℤ)
    (hk : k < 36) (hc : c = 14 + 3 * k) :
    (if packet_stream A p data (p + 5 + truncQ (10 * (c : ℚ))) > A / 2 then 1 else 0)
      = if data k = true then 1 else 0 := by
  have e : (10 : ℚ) = ((10 : ℤ) : ℚ) := by norm_num
  rw [e, truncQ_int_mul,
    packet_stream_in_chip A p data (14 + 3 * k) _ (by push_cast; omega) (by push_cast; omega),
    packet_chip_data_slot data k hk]
  cases data k
  · simp only [Bool.false_eq_true, if_false]
    rw [if_neg (by linarith)]
  · simp only [if_true]
    rw [if_pos (by linarith)]

theorem packet_addr_bits (A : ℚ) (p : ℤ) (data : ℕ → Bool) (a : ℕ) (hA : 0 < A)
    (ha : a < 1024)
    (haddr : ∀ j : ℕ, j < 10 →
      ((data (2 * j) = true ∧ data (2 * j + 1) = true) ↔ a.testBit j = false)) :
    addr_bits (packet_stream A p data) (p + 5) 10 (A / 2) = a := by
  rw [addr_bits_eq_sum, ← sum_testBit 10 a (by simpa using ha)]
  apply Finset.sum_congr rfl
  intro j hj
  have hj' : j < 10 := Finset.mem_range.mp hj
  rw [address_eq,
    packet_data_sample A p data hA (2 * j) _ (by omega) (by push_cast; ring),
    packet_data_sample A p data hA (2 * j + 1) _ (by omega) (by push_cast; ring)]
  have key := haddr j hj'
  cases h1 : data (2 * j) <;> cases h2 : data (2 * j + 1) <;> cases h3 : a.testBit j <;>
    simp [h1, h2, h3] at key ⊢

theorem packet_switch_bits (A : ℚ) (p : ℤ) (data : ℕ → Bool) (s : ℕ) (hA : 0 < A)
    (hs : s < 256)
    (hsw : ∀ j : ℕ, j < 8 →
      ((data (20 + 2 * j) = false ∧ data (21 + 2 * j) = true) ↔ s.testBit j = false)) :
    switch_bits (packet_stream A p data) (p + 5) 10 (A / 2) = s := by
  rw [switch_bits_eq_sum, ← sum_testBit 8 s (by simpa using hs)]
  apply Finset.sum_congr rfl
  intro j hj
  have hj' : j < 8 := Finset.mem_range.mp hj
  rw [switches_eq,
    packet_data_sample A p data hA (20 + 2 * j) _ (by omega) (by push_cast; ring),
    packet_data_sample A p data hA (21 + 2 * j) _ (by omega) (by push_cast; ring)]
  have key := hsw j hj'
  cases h1 : data (20 + 2 * j) <;> cases h2 : data (21 + 2 * j) <;> cases h3 : s.testBit j <;>
    simp [h1, h2, h3] at key ⊢

/-- A pass through the loop body that finds a candidate, locks, finishes the rate search
and validates the payload commits the rate and posts one message. -/
theorem work_body_emit (fuel : ℕ) (self : keyfob_msg) (inp : ℤ → ℚ) (i c : ℤ)
    (temp_bitrate temp_spb : ℚ)
    (h1 : preamble_candidate self inp i = true)
    (h2 : bit_center fuel inp (truncQ self.d_samples_per_bit) i = some c)
    (h3 : rate_search self inp c fuel self.d_bitrate self.d_samples_per_bit
      = some (temp_bitrate, temp_spb))
    (h4 : its_on inp c temp_spb (inp c / 2) = true) :
    work_body fuel self inp i =
      some { self := { self with d_bitrate := temp_bitrate, d_samples_per_bit := temp_spb }
             posted := [{ ref := inp c / 2
                          addr_bits := addr_bits inp c temp_spb (inp c / 2)
                          switch_bits := switch_bits inp c temp_spb (inp c / 2) }]
             i := c + truncQ (128 * temp_spb) } := by
  unfold work_body
  rw [if_pos h1, h2]
  dsimp only
  rw [h3]
  dsimp only
  rw [if_pos h4]

/-- The pass of the loop body of `work` at the first sample of the test packet. -/
theorem packet_work_body (A t : ℚ) (p : ℤ) (data : ℕ → Bool) (a s : ℕ) (fuel : ℕ)
    (hA : 0 < A) (ht : t < A) (ha : a < 1024) (hs : s < 256)
    (haddr : ∀ j : ℕ, j < 10 →
      ((data (2 * j) = true ∧ data (2 * j + 1) = true) ↔ a.testBit j = false))
    (hsw : ∀ j : ℕ, j < 8 →
      ((data (20 + 2 * j) = false ∧ data (21 + 2 * j) = true) ↔ s.testBit j = false)) :
    work_body (fuel + 5) (keyfob_make_msg 24000 t) (packet_stream A p data) p =
      some { self := keyfob_make_msg 24000 t
             posted := [{ ref := A / 2, addr_bits := a, switch_bits := s }]
             i := p + 1285 } := by
  have e10 : truncQ (keyfob_make_msg 24000 t).d_samples_per_bit = 10 := by
    rw [make_msg_samples_per_bit, truncQ_intCast]
  have hc : packet_stream A p data (p + 5) = A :=
    packet_stream_first_chip A p data (p + 5) (by omega) (by omega)
  have h2 : bit_center (fuel + 5) (packet_stream A p data)
      (truncQ (keyfob_make_msg 24000 t).d_samples_per_bit) p = some (p + 5) := by
    rw [e10]
    exact packet_bit_center A p data hA fuel
  have h4 : its_on (packet_stream A p data) (p + 5) 10
      (packet_stream A p data (p + 5) / 2) = true := by
    rw [hc]
    exact packet_its_on A p data hA
  rw [work_body_emit (fuel + 5) (keyfob_make_msg 24000 t) (packet_stream A p data) p (p + 5)
    2400 10 (packet_preamble_candidate A t p data hA ht) h2
    (packet_rate_search A t p data hA (fuel + 4)) h4]
  have e128 : truncQ (128 * 10) = 1280 := by decide!
  have es : ({ (keyfob_make_msg 24000 t) with d_bitrate := 2400, d_samples_per_bit := 10 }
      : keyfob_msg) = keyfob_make_msg 24000 t := by
    simp only [keyfob_make_msg]
    norm_num
  have ei : p + 5 + 1280 = p + 1285 := by ring
  rw [hc, packet_addr_bits A p data a hA ha haddr, packet_switch_bits A p data s hA hs hsw,
    e128, es, ei]

theorem work_loop_succ (inp : ℤ → ℚ) (noutput_items : ℤ) (fuel : ℕ) (self : keyfob_msg)
    (posted : List Message) (i : ℤ) :
    work_loop inp noutput_items (fuel + 1) self posted i =
      if i < noutput_items then
        match work_body fuel self inp i with
        | none => none
        | some r => work_loop inp noutput_items fuel r.self (posted ++ r.posted) (r.i + 1)
      else some { self := self, posted := posted, ret := i } := by
  rw [work_loop]

/-- Scanning over `k` indices that are not preamble candidates uses `k` units of fuel and
changes nothing else. -/
theorem work_loop_skip (self : keyfob_msg) (inp : ℤ → ℚ) (noutput_items : ℤ)
    (posted : List Message) :
    ∀ (k fuel : ℕ) (i : ℤ),
      (∀ x, i ≤ x → x < i + k → x < noutput_items ∧ preamble_candidate self inp x = false) →
      work_loop inp noutput_items (fuel + k) self posted i
        = work_loop inp noutput_items fuel self posted (i + k) := by
  intro k
  induction k with
  | zero => intro fuel i _; simp
  | succ k ih =>
    intro fuel i h
    have hi := h i (le_refl i) (by push_cast; omega)
    show work_loop inp noutput_items (fuel + k + 1) self posted i = _
    rw [work_loop_succ, if_pos hi.1, work_body_idle (fuel + k) self inp i hi.2]
    simp only [List.append_nil]
    rw [ih fuel (i + 1) (fun x h0 h1 => h x (by omega) (by push_cast; omega))]
    congr 1
    push_cast
    ring

/-- From an index after which nothing is a preamble candidate, the scan runs to the end of
the window (or stops at once if it is already past it). -/
theorem work_loop_finish (self : keyfob_msg) (inp : ℤ → ℚ) (noutput_items : ℤ)
    (posted : List Message) (fuel : ℕ) (i : ℤ)
    (h : ∀ x, i ≤ x → x < noutput_items → preamble_candidate self inp x = false)
    (hfuel : noutput_items - i < fuel) (hfuel0 : 0 < fuel) :
    work_loop inp noutput_items fuel self posted i
      = some { self := self, posted := posted, ret := max i noutput_items } := by
  obtain ⟨f, k, hf, hk⟩ : ∃ f k : ℕ, fuel = f + 1 + k ∧ (k : ℤ) = max 0 (noutput_items - i) :=
    ⟨fuel - 1 - (noutput_items - i).toNat, (noutput_items - i).toNat, by omega, by omega⟩
  rw [hf, work_loop_skip self inp noutput_items posted k (f + 1) i
    (fun x h0 h1 => ⟨by omega, h x h0 (by omega)⟩)]
  rw [work_loop_succ, if_neg (by omega)]
  congr 2
  omega

theorem encode_data_address (a s j : ℕ) (hj : j < 10) :
    (encode_data a s (2 * j) = true ∧ encode_data a s (2 * j + 1) = true) ↔
      a.testBit j = false := by
  unfold encode_data
  rw [if_pos (by omega), if_pos (by omega)]
  have e1 : 2 * j / 2 = j := by omega
  have e2 : (2 * j + 1) / 2 = j := by omega
  rw [e1, e2]
  cases a.testBit j <;> simp

theorem encode_data_switches (a s j : ℕ) (_hj : j < 8) :
    (encode_data a s (20 + 2 * j) = false ∧ encode_data a s (21 + 2 * j) = true) ↔
      s.testBit j = false := by
  unfold encode_data
  rw [if_neg (by omega), if_pos (by omega), if_neg (by omega), if_neg (by omega)]
  have e1 : (20 + 2 * j - 20) / 2 = j := by omega
  rw [e1]
  cases s.testBit j <;> simp

/-- `work` on a test stream: the scan idles up to the packet start `p`, decodes the packet
there and idles to the end of the window. -/
theorem packet_work (A t : ℚ) (p n : ℤ) (data : ℕ → Bool) (a s : ℕ) (fuel : ℕ)
    (hA : 0 < A) (ht0 : 0 ≤ t) (ht : t < A) (ha : a < 1024) (hs : s < 256)
    (hp : 0 ≤ p) (hn : p < n) (hfuel : n + 6 ≤ fuel)
    (haddr : ∀ j : ℕ, j < 10 →
      ((data (2 * j) = true ∧ data (2 * j + 1) = true) ↔ a.testBit j = false))
    (hsw : ∀ j : ℕ, j < 8 →
      ((data (20 + 2 * j) = false ∧ data (21 + 2 * j) = true) ↔ s.testBit j = false)) :
    work fuel (keyfob_make_msg 24000 t) (packet_stream A p data) n =
      some { self := keyfob_make_msg 24000 t
             posted := [{ ref := A / 2, addr_bits := a, switch_bits := s }]
             ret := max (p + 1286) n } := by
  obtain ⟨g, P, hg, hP⟩ : ∃ g P : ℕ, fuel = g + 5 + 1 + P ∧ (P : ℤ) = p :=
    ⟨fuel - 6 - p.toNat, p.toNat, by omega, by omega⟩
  have hthr : (keyfob_make_msg 24000 t).d_threshold = t := rfl
  unfold work
  rw [hg, work_loop_skip (keyfob_make_msg 24000 t) (packet_stream A p data) n [] P
    (g + 5 + 1) 0 (fun x h0 h1 => ⟨by omega,
      preamble_candidate_below_threshold _ _ x (by
        rw [packet_stream_before A p data x (by omega), hthr]
        exact not_lt.mpr ht0)⟩)]
  have e0 : (0 : ℤ) + (P : ℤ) = p := by omega
  rw [e0]
  rw [work_loop_succ, if_pos hn, packet_work_body A t p data a s g hA ht ha hs haddr hsw]
  dsimp only
  have e1 : p + 1285 + 1 = p + 1286 := by ring
  rw [e1, List.nil_append]
  exact work_loop_finish (keyfob_make_msg 24000 t) (packet_stream A p data) n _ (g + 5)
    (p + 1286)
    (fun x h0 _ => preamble_candidate_below_threshold _ _ x (by
      rw [packet_stream_after A p data x (by omega), hthr]
      exact not_lt.mpr ht0))
    (by push_cast; omega) (by omega)

/-- C5. Encode-decode round trip at bit rate 2400 and sample rate 24000 (ten samples
per bit): for every address `a < 1024`, switches `s < 256`, amplitude `A > 0`, threshold
`0 ≤ t < A` and packet start `p ≥ 10`, on the noise-free stream that holds the 13 preamble
chips and 36 (low, data, high) symbols whose data chips encode `a` and `s` as stated, an
invocation of `work` on a freshly constructed decoder whose scan reaches `p` terminates
and posts exactly one message, with address `a`, switches `s` and reference level `A/2`;
the decoder state is unchanged.  This holds for every admissible choice `data` of data
chips, and `encode_data a s` is one. -/
theorem round_trip (a s : ℕ) (A t : ℚ) (p n : ℤ) (data : ℕ → Bool) (fuel : ℕ)
    (ha : a < 1024) (hs : s < 256) (hA : 0 < A) (ht0 : 0 ≤ t) (ht : t < A)
    (hp : 10 ≤ p) (hn : p < n) (hfuel : n + 6 ≤ fuel)
    (haddr : ∀ j : ℕ, j < 10 →
      ((data (2 * j) = true ∧ data (2 * j + 1) = true) ↔ a.testBit j = false))
    (hsw : ∀ j : ℕ, j < 8 →
      ((data (20 + 2 * j) = false ∧ data (21 + 2 * j) = true) ↔ s.testBit j = false)) :
    work fuel (keyfob_make_msg 24000 t) (packet_stream A p data) n =
        some { self := keyfob_make_msg 24000 t
               posted := [{ ref := A / 2, addr_bits := a, switch_bits := s }]
               ret := max (p + 1286) n } ∧
    work fuel (keyfob_make_msg 24000 t) (packet_stream A p (encode_data a s)) n =
        some { self := keyfob_make_msg 24000 t
               posted := [{ ref := A / 2, addr_bits := a, switch_bits := s }]
               ret := max (p + 1286) n } :=
  ⟨packet_work A t p n data a s fuel hA ht0 ht ha hs (by omega) hn hfuel haddr hsw,
    packet_work A t p n (encode_data a s) a s fuel hA ht0 ht ha hs (by omega) hn hfuel
      (fun j hj => encode_data_address a s j hj) (fun j hj => encode_data_switches a s j hj)⟩

/-- Witness for C5: the test vector of the specification, address `0x155` and switches
`0x0F`, at amplitude 5, threshold 1, packet start 10. -/
theorem round_trip_witness :
    ((0x155 : ℕ) < 1024 ∧ (0x0F : ℕ) < 256 ∧ (0 : ℚ) < 5 ∧ (0 : ℚ) ≤ 1 ∧ (1 : ℚ) < 5 ∧
      (10 : ℤ) ≤ 10 ∧ (10 : ℤ) < 11 ∧ (11 : ℤ) + 6 ≤ ((20 : ℕ) : ℤ) ∧
      (∀ j : ℕ, j < 10 →
        ((encode_data 0x155 0x0F (2 * j) = true ∧ encode_data 0x155 0x0F (2 * j + 1) = true) ↔
          (0x155 : ℕ).testBit j = false)) ∧
      (∀ j : ℕ, j < 8 →
        ((encode_data 0x155 0x0F (20 + 2 * j) = false ∧
            encode_data 0x155 0x0F (21 + 2 * j) = true) ↔
          (0x0F : ℕ).testBit j = false))) ∧
    (work 20 (keyfob_make_msg 24000 1) (packet_stream 5 10 (encode_data 0x155 0x0F)) 11 =
        some { self := keyfob_make_msg 24000 1
               posted := [{ ref := 5 / 2, addr_bits := ((0x155 : ℕ) : ℤ),
                            switch_bits := ((0x0F : ℕ) : ℤ) }]
               ret := max (10 + 1286) 11 } ∧
      work 20 (keyfob_make_msg 24000 1) (packet_stream 5 10 (encode_data 0x155 0x0F)) 11 =
        some { self := keyfob_make_msg 24000 1
               posted := [{ ref := 5 / 2, addr_bits := ((0x155 : ℕ) : ℤ),
                            switch_bits := ((0x0F : ℕ) : ℤ) }]
               ret := max (10 + 1286) 11 }) :=
  ⟨⟨by decide, by decide, by decide!, by decide!, by decide!, by decide, by decide, by decide,
      by decide, by decide⟩,
    round_trip 0x155 0x0F 5 1 10 11 (encode_data 0x155 0x0F) 20 (by decide) (by decide)
      (by decide!) (by decide!) (by decide!) (by decide) (by decide) (by decide)
      (by decide) (by decide)⟩

/-! ### Fuel

More fuel never changes a result: a run that ends with some fuel ends in the same way with
any larger amount, so `∃ fuel, work fuel … = some res` is "the invocation terminates with
`res`". -/

theorem bit_center_mono (inp : ℤ → ℚ) (w : ℤ) :
    ∀ (fuel : ℕ) (i c : ℤ), bit_center fuel inp w i = some c →
      bit_center (fuel + 1) inp w i = some c := by
  intro fuel
  induction fuel with
  | zero => intro i c h; simp [bit_center] at h
  | succ k ih =>
    intro i c h
    rw [bit_center] at h
    rw [bit_center]
    split
    · next hl =>
      rw [if_pos hl] at h
      exact ih _ _ h
    · next hl =>
      rw [if_neg hl] at h
      exact h

theorem rate_search_mono (self : keyfob_msg) (inp : ℤ → ℚ) (i : ℤ) :
    ∀ (fuel : ℕ) (tb tspb : ℚ) (res : ℚ × ℚ),
      rate_search self inp i fuel tb tspb = some res →
      rate_search self inp i (fuel + 1) tb tspb = some res := by
  intro fuel
  induction fuel with
  | zero => intro tb tspb res h; simp [rate_search] at h
  | succ k ih =>
    intro tb tspb res h
    rw [rate_search] at h
    rw [rate_search]
    split
    · next h1 =>
      rw [if_pos h1] at h
      exact ih _ _ _ h
    · next h1 =>
      rw [if_neg h1] at h
      split
      · next h2 =>
        rw [if_pos h2] at h
        exact ih _ _ _ h
      · next h2 =>
        rw [if_neg h2] at h
        dsimp only at h ⊢
        split
        · next h3 =>
          rw [if_pos h3] at h
          exact h
        · next h3 =>
          rw [if_neg h3] at h
          exact ih _ _ _ h

/-- A pass through the loop body that finds a candidate, locks and finishes the rate search
but fails the payload validation posts nothing, commits nothing and moves the scan index. -/
theorem work_body_reject (fuel : ℕ) (self : keyfob_msg) (inp : ℤ → ℚ) (i c : ℤ)
    (temp_bitrate temp_spb : ℚ)
    (h1 : preamble_candidate self inp i = true)
    (h2 : bit_center fuel inp (truncQ self.d_samples_per_bit) i = some c)
    (h3 : rate_search self inp c fuel self.d_bitrate self.d_samples_per_bit
      = some (temp_bitrate, temp_spb))
    (h4 : its_on inp c temp_spb (inp c / 2) = false) :
    work_body fuel self inp i =
      some { self := self, posted := [],
             i := truncQ ((c : ℚ) + 128 * self.d_samples_per_bit) } := by
  unfold work_body
  rw [if_pos h1, h2]
  dsimp only
  rw [h3]
  dsimp only
  rw [if_neg (by rw [h4]; decide)]

theorem work_body_mono (fuel : ℕ) (self : keyfob_msg) (inp : ℤ → ℚ) (i : ℤ) (r : BodyResult)
    (h : work_body fuel self inp i = some r) : work_body (fuel + 1) self inp i = some r := by
  rcases work_body_cases fuel self inp i r h with
    ⟨hc, e⟩ | ⟨c, tb, tspb, hc, hb, hr, ⟨ho, e⟩ | ⟨ho, e⟩⟩
  · rw [e]
    exact work_body_idle _ _ _ _ hc
  · rw [e]
    exact work_body_reject _ _ _ _ c tb tspb hc (bit_center_mono _ _ _ _ _ hb)
      (rate_search_mono _ _ _ _ _ _ _ hr) ho
  · rw [e]
    exact work_body_emit _ _ _ _ c tb tspb hc (bit_center_mono _ _ _ _ _ hb)
      (rate_search_mono _ _ _ _ _ _ _ hr) ho

theorem work_loop_mono (inp : ℤ → ℚ) (noutput_items : ℤ) :
    ∀ (fuel : ℕ) (self : keyfob_msg) (posted : List Message) (i : ℤ) (res : WorkResult),
      work_loop inp noutput_items fuel self posted i = some res →
      work_loop inp noutput_items (fuel + 1) self posted i = some res := by
  intro fuel
  induction fuel with
  | zero => intro self posted i res h; simp [work_loop] at h
  | succ k ih =>
    intro self posted i res h
    rw [work_loop_succ] at h
    rw [work_loop_succ]
    split
    · next hl =>
      rw [if_pos hl] at h
      cases hb : work_body k self inp i with
      | none => rw [hb] at h; cases h
      | some r =>
        rw [hb] at h
        rw [work_body_mono k self inp i r hb]
        exact ih _ _ _ _ h
    · next hl =>
      rw [if_neg hl] at h
      exact h

/-- More fuel does not change the outcome of `work`. -/
theorem work_mono (fuel extra : ℕ) (self : keyfob_msg) (inp : ℤ → ℚ) (noutput_items : ℤ)
    (res : WorkResult) (h : work fuel self inp noutput_items = some res) :
    work (fuel + extra) self inp noutput_items = some res := by
  induction extra with
  | zero => exact h
  | succ k ih => exact work_loop_mono inp noutput_items (fuel + k) _ _ _ _ ih

/-! ### The rate search -/

/-- Once the candidate rate is outside the bounds the loop `continue`s without changing
anything: no amount of fuel ends it. -/
theorem rate_search_stuck (self : keyfob_msg) (inp : ℤ → ℚ) (i : ℤ) (tb : ℚ)
    (h : tb > self.d_bitrate_max ∨ tb < self.d_bitrate_min) :
    ∀ (fuel : ℕ) (tspb : ℚ), rate_search self inp i fuel tb tspb = none := by
  intro fuel
  induction fuel with
  | zero => intro tspb; rfl
  | succ k ih =>
    intro tspb
    rw [rate_search]
    rcases h with h | h
    · rw [if_pos h]
      exact ih tspb
    · split <;> exact ih tspb

/-- One iteration of the rate search at an in-range rate with a non-zero direction. -/
theorem rate_search_step (self : keyfob_msg) (inp : ℤ → ℚ) (i : ℤ) (fuel : ℕ) (tb tspb : ℚ)
    (h1 : ¬ tb > self.d_bitrate_max) (h2 : ¬ tb < self.d_bitrate_min)
    (hd : get_clock_rate_dir self inp i tb ≠ 0) :
    rate_search self inp i (fuel + 1) tb tspb =
      rate_search self inp i fuel
        (tb + (get_clock_rate_dir self inp i tb : ℚ) * self.d_bitrate_step)
        (self.d_rate / (tb + (get_clock_rate_dir self inp i tb : ℚ) * self.d_bitrate_step)) := by
  rw [rate_search, if_neg h1, if_neg h2]
  dsimp only
  rw [if_neg hd]

/-- One iteration of the rate search at an in-range rate with direction zero. -/
theorem rate_search_break (self : keyfob_msg) (inp : ℤ → ℚ) (i : ℤ) (fuel : ℕ) (tb tspb : ℚ)
    (h1 : ¬ tb > self.d_bitrate_max) (h2 : ¬ tb < self.d_bitrate_min)
    (hd : get_clock_rate_dir self inp i tb = 0) :
    rate_search self inp i (fuel + 1) tb tspb = some (tb, tspb) := by
  rw [rate_search, if_neg h1, if_neg h2]
  dsimp only
  rw [if_pos hd]

theorem rate_search_none_of_step (self : keyfob_msg) (inp : ℤ → ℚ) (i : ℤ) (tb tb' : ℚ)
    (d : ℤ) (h1 : ¬ tb > self.d_bitrate_max) (h2 : ¬ tb < self.d_bitrate_min)
    (hd : get_clock_rate_dir self inp i tb = d) (hd0 : d ≠ 0)
    (htb : tb + (d : ℚ) * self.d_bitrate_step = tb')
    (hnext : ∀ (fuel : ℕ) (tspb : ℚ), rate_search self inp i fuel tb' tspb = none) :
    ∀ (fuel : ℕ) (tspb : ℚ), rate_search self inp i fuel tb tspb = none := by
  intro fuel tspb
  cases fuel with
  | zero => rfl
  | succ k =>
    rw [rate_search_step self inp i k tb tspb h1 h2 (by rw [hd]; exact hd0), hd, htb]
    exact hnext k _

/-- What the tracker loop of line 169 returns: the index after the first index at or after
the anchor at which `early_late` is not positive. -/
theorem bit_center_spec (inp : ℤ → ℚ) (w : ℤ) :
    ∀ (fuel : ℕ) (a c : ℤ), bit_center fuel inp w a = some c →
      a < c ∧ ¬ early_late inp (c - 1) w > 0 ∧
        ∀ k, a ≤ k → k < c - 1 → early_late inp k w > 0 := by
  intro fuel
  induction fuel with
  | zero => intro a c h; simp [bit_center] at h
  | succ n ih =>
    intro a c h
    rw [bit_center] at h
    split at h
    · next hl =>
      obtain ⟨h1, h2, h3⟩ := ih (a + 1) c h
      refine ⟨by omega, h2, fun k hk1 hk2 => ?_⟩
      rcases eq_or_lt_of_le hk1 with e | e
      · rw [← e]; exact hl
      · exact h3 k (by omega) hk2
    · next hl =>
      simp only [Option.some.injEq] at h
      subst h
      refine ⟨by omega, by simpa using hl, fun k hk1 hk2 => by omega⟩

theorem work_body_none (fuel : ℕ) (self : keyfob_msg) (inp : ℤ → ℚ) (i : ℤ)
    (h1 : preamble_candidate self inp i = true)
    (h2 : ∀ c, bit_center fuel inp (truncQ self.d_samples_per_bit) i = some c →
      rate_search self inp c fuel self.d_bitrate self.d_samples_per_bit = none) :
    work_body fuel self inp i = none := by
  unfold work_body
  rw [if_pos h1]
  cases hb : bit_center fuel inp (truncQ self.d_samples_per_bit) i with
  | none => rfl
  | some c =>
    dsimp only
    rw [h2 c hb]

/-- C11 at a failing input. On `runaway_window` at 4800 samples per second the preamble
matches at index 0, the tracker locks at index 1 and the discriminant keeps growing toward
lower rates: the search steps from 2400 down to 2200 and on to 2180, below `bitrateMin`,
where the loop `continue`s for ever instead of clamping and stopping. No amount of fuel
ends the search, nor the invocation of `work`. -/
theorem rate_search_runs_away :
    (∀ fuel : ℕ, rate_search (keyfob_make_msg 4800 (1 / 2)) runaway_window 1 fuel
        (keyfob_make_msg 4800 (1 / 2)).d_bitrate
        (keyfob_make_msg 4800 (1 / 2)).d_samples_per_bit = none) ∧
    (∀ fuel : ℕ, work fuel (keyfob_make_msg 4800 (1 / 2)) runaway_window 1 = none) := by
  have s0 : ∀ (fuel : ℕ) (tspb : ℚ),
      rate_search (keyfob_make_msg 4800 (1 / 2)) runaway_window 1 fuel 2180 tspb = none :=
    rate_search_stuck _ _ _ _ (Or.inr (by decide!))
  have s1 := rate_search_none_of_step (keyfob_make_msg 4800 (1 / 2)) runaway_window 1 2200 2180
    (-1) (by decide!) (by decide!) (by decide!) (by decide) (by decide!) s0
  have s2 := rate_search_none_of_step (keyfob_make_msg 4800 (1 / 2)) runaway_window 1 2220 2200
    (-1) (by decide!) (by decide!) (by decide!) (by decide) (by decide!) s1
  have s3 := rate_search_none_of_step (keyfob_make_msg 4800 (1 / 2)) runaway_window 1 2240 2220
    (-1) (by decide!) (by decide!) (by decide!) (by decide) (by decide!) s2
  have s4 := rate_search_none_of_step (keyfob_make_msg 4800 (1 / 2)) runaway_window 1 2260 2240
    (-1) (by decide!) (by decide!) (by decide!) (by decide) (by decide!) s3
  have s5 := rate_search_none_of_step (keyfob_make_msg 4800 (1 / 2)) runaway_window 1 2280 2260
    (-1) (by decide!) (by decide!) (by decide!) (by decide) (by decide!) s4
  have s6 := rate_search_none_of_step (keyfob_make_msg 4800 (1 / 2)) runaway_window 1 2300 2280
    (-1) (by decide!) (by decide!) (by decide!) (by decide) (by decide!) s5
  have s7 := rate_search_none_of_step (keyfob_make_msg 4800 (1 / 2)) runaway_window 1 2320 2300
    (-1) (by decide!) (by decide!) (by decide!) (by decide) (by decide!) s6
  have s8 := rate_search_none_of_step (keyfob_make_msg 4800 (1 / 2)) runaway_window 1 2340 2320
    (-1) (by decide!) (by decide!) (by decide!) (by decide) (by decide!) s7
  have s9 := rate_search_none_of_step (keyfob_make_msg 4800 (1 / 2)) runaway_window 1 2360 2340
    (-1) (by decide!) (by decide!) (by decide!) (by decide) (by decide!) s8
  have s10 := rate_search_none_of_step (keyfob_make_msg 4800 (1 / 2)) runaway_window 1 2380 2360
    (-1) (by decide!) (by decide!) (by decide!) (by decide) (by decide!) s9
  have s11 := rate_search_none_of_step (keyfob_make_msg 4800 (1 / 2)) runaway_window 1 2400 2380
    (-1) (by decide!) (by decide!) (by decide!) (by decide) (by decide!) s10
  have hb : (keyfob_make_msg 4800 (1 / 2)).d_bitrate = 2400 := rfl
  refine ⟨fun fuel => by rw [hb]; exact s11 fuel _, fun fuel => ?_⟩
  cases fuel with
  | zero => rfl
  | succ f =>
    unfold work
    rw [work_loop_succ, if_pos (by decide)]
    have hbody : work_body f (keyfob_make_msg 4800 (1 / 2)) runaway_window 0 = none := by
      apply work_body_none _ _ _ _ (by decide!)
      intro c hc
      obtain ⟨h1, -, h3⟩ := bit_center_spec _ _ _ _ _ hc
      have hstop : ¬ early_late runaway_window 0
          (truncQ (keyfob_make_msg 4800 (1 / 2)).d_samples_per_bit) > 0 := by decide!
      have hc1 : c = 1 := by
        by_contra hne
        exact hstop (h3 0 (le_refl 0) (by omega))
      rw [hc1, hb]
      exact s11 f _
    rw [hbody]

/-- The samples per bit a finished rate search returns are the ones it started with (when
it did not move) or the sample rate divided by the rate it found. -/
theorem rate_search_spb (self : keyfob_msg) (inp : ℤ → ℚ) (i : ℤ) :
    ∀ (fuel : ℕ) (tb tspb tb' tspb' : ℚ),
      rate_search self inp i fuel tb tspb = some (tb', tspb') →
      (tb' = tb ∧ tspb' = tspb) ∨ tspb' = self.d_rate / tb' := by
  intro fuel
  induction fuel with
  | zero => intro tb tspb tb' tspb' h; simp [rate_search] at h
  | succ k ih =>
    intro tb tspb tb' tspb' h
    rw [rate_search] at h
    split at h
    · exact ih _ _ _ _ h
    · split at h
      · exact ih _ _ _ _ h
      · dsimp only at h
        split at h
        · simp only [Option.some.injEq, Prod.mk.injEq] at h
          exact Or.inl ⟨h.1.symm, h.2.symm⟩
        · rcases ih _ _ _ _ h with ⟨e1, e2⟩ | e
          · right
            rw [e2, e1]
          · exact Or.inr e

/-- C12. Commit only on success. For a pass through the loop body of `work` that ends:
the sample rate, threshold, bounds and step never change; a preamble mismatch and a payload
validation failure leave the object (bit rate and samples per bit included) as it was and
post nothing; the bit rate or the samples per bit differ afterwards only if the payload
validation succeeded; and after a successful validation one message is posted, the bit rate
is the rate found by the search and the samples per bit are the ones the search returns,
which are the sample rate divided by that rate whenever the search moved, and also when it
did not move for an object that satisfied `samplesPerBit = sampleRate / bitrate` before. -/
theorem commit_only_on_success (fuel : ℕ) (self : keyfob_msg) (inp : ℤ → ℚ) (i : ℤ)
    (r : BodyResult) (h : work_body fuel self inp i = some r) :
    (r.self.d_rate = self.d_rate ∧ r.self.d_threshold = self.d_threshold ∧
      r.self.d_bitrate_min = self.d_bitrate_min ∧ r.self.d_bitrate_max = self.d_bitrate_max ∧
      r.self.d_bitrate_step = self.d_bitrate_step) ∧
    (preamble_candidate self inp i = false → r.self = self ∧ r.posted = []) ∧
    (∀ c temp_bitrate temp_spb,
      bit_center fuel inp (truncQ self.d_samples_per_bit) i = some c →
      rate_search self inp c fuel self.d_bitrate self.d_samples_per_bit
        = some (temp_bitrate, temp_spb) →
      its_on inp c temp_spb (inp c / 2) = false → r.self = self ∧ r.posted = []) ∧
    ((r.self.d_bitrate ≠ self.d_bitrate ∨
        r.self.d_samples_per_bit ≠ self.d_samples_per_bit) →
      ∃ c temp_bitrate temp_spb,
        preamble_candidate self inp i = true ∧
        bit_center fuel inp (truncQ self.d_samples_per_bit) i = some c ∧
        rate_search self inp c fuel self.d_bitrate self.d_samples_per_bit
          = some (temp_bitrate, temp_spb) ∧
        its_on inp c temp_spb (inp c / 2) = true) ∧
    (∀ c temp_bitrate temp_spb,
      preamble_candidate self inp i = true →
      bit_center fuel inp (truncQ self.d_samples_per_bit) i = some c →
      rate_search self inp c fuel self.d_bitrate self.d_samples_per_bit
        = some (temp_bitrate, temp_spb) →
      its_on inp c temp_spb (inp c / 2) = true →
      r.self.d_bitrate = temp_bitrate ∧ r.self.d_samples_per_bit = temp_spb ∧
        r.posted.length = 1 ∧
        (temp_bitrate ≠ self.d_bitrate →
          r.self.d_samples_per_bit = self.d_rate / temp_bitrate) ∧
        (self.d_samples_per_bit = self.d_rate / self.d_bitrate →
          r.self.d_samples_per_bit = self.d_rate / temp_bitrate)) := by
  rcases work_body_cases fuel self inp i r h with
    ⟨hc, e⟩ | ⟨c, tb, tspb, hc, hb, hr, ⟨ho, e⟩ | ⟨ho, e⟩⟩
  · subst e
    refine ⟨⟨rfl, rfl, rfl, rfl, rfl⟩, fun _ => ⟨rfl, rfl⟩, fun _ _ _ _ _ _ => ⟨rfl, rfl⟩,
      fun hne => ?_, fun c tb tspb hc' => ?_⟩
    · rcases hne with hne | hne <;> exact absurd rfl hne
    · rw [hc] at hc'; cases hc'
  · subst e
    refine ⟨⟨rfl, rfl, rfl, rfl, rfl⟩, fun _ => ⟨rfl, rfl⟩, fun _ _ _ _ _ _ => ⟨rfl, rfl⟩,
      fun hne => ?_, fun c' tb' tspb' _ hb' hr' ho' => ?_⟩
    · rcases hne with hne | hne <;> exact absurd rfl hne
    · rw [hb] at hb'; cases hb'
      rw [hr] at hr'; cases hr'
      rw [ho] at ho'; cases ho'
  · subst e
    refine ⟨⟨rfl, rfl, rfl, rfl, rfl⟩, fun hc' => ?_, fun c' tb' tspb' hb' hr' ho' => ?_,
      fun _ => ⟨c, tb, tspb, hc, hb, hr, ho⟩, fun c' tb' tspb' _ hb' hr' _ => ?_⟩
    · rw [hc] at hc'; cases hc'
    · rw [hb] at hb'; cases hb'
      rw [hr] at hr'; cases hr'
      rw [ho] at ho'; cases ho'
    · rw [hb] at hb'; cases hb'
      rw [hr] at hr'; cases hr'
      refine ⟨rfl, rfl, rfl, fun hne => ?_, fun hI => ?_⟩
      · rcases rate_search_spb self inp c fuel _ _ _ _ hr with ⟨e1, -⟩ | e
        · exact absurd e1 hne
        · exact e
      · exact (rate_search_in_bounds self inp c fuel _ _ _ _ hr hI).2.2

/-- Witness for C12: the pass of the loop body that decodes the test vector commits the
rate 2400 found by the search and ten samples per bit. -/
theorem commit_only_on_success_witness :
    work_body 20 (keyfob_make_msg 24000 1) test_window 10 = some test_body_result ∧
    (test_body_result.self.d_bitrate = 2400 ∧
      test_body_result.self.d_samples_per_bit = 10 ∧
      test_body_result.posted.length = 1 ∧
      ((2400 : ℚ) ≠ (keyfob_make_msg 24000 1).d_bitrate →
        test_body_result.self.d_samples_per_bit = (keyfob_make_msg 24000 1).d_rate / 2400) ∧
      ((keyfob_make_msg 24000 1).d_samples_per_bit =
          (keyfob_make_msg 24000 1).d_rate / (keyfob_make_msg 24000 1).d_bitrate →
        test_body_result.self.d_samples_per_bit = (keyfob_make_msg 24000 1).d_rate / 2400)) :=
  ⟨by decide!,
    (commit_only_on_success 20 (keyfob_make_msg 24000 1) test_window 10 test_body_result
      (by decide!)).2.2.2.2 15 2400 10 (by decide!) (by decide!) (by decide!) (by decide!)⟩

/-! ### The bit-centre tracker -/

theorem early_late_cases (inp : ℤ → ℚ) (c w : ℤ) :
    early_late inp c w = -1 ∨ early_late inp c w = 0 ∨ early_late inp c w = 1 := by
  unfold early_late
  dsimp only
  split
  · exact Or.inl rfl
  · split
    · exact Or.inr (Or.inr rfl)
    · exact Or.inr (Or.inl rfl)

/-- C14 as stated fails: on the test vector (scan index 10, ten samples per bit) the loop
body of `work` decodes with the tracker's index 15, and index 15 is not the first index from
the anchor 10 at which `early_late` is `0` or `-1`: `early_late` is already `0` at index 14,
so it is not `+1` at every index in `10..14`. -/
theorem tracker_index_not_first_stop :
    work_body 20 (keyfob_make_msg 24000 1) test_window 10 = some test_body_result ∧
    bit_center 20 test_window (truncQ (keyfob_make_msg 24000 1).d_samples_per_bit) 10
      = some 15 ∧
    early_late test_window 14 (truncQ (keyfob_make_msg 24000 1).d_samples_per_bit) = 0 ∧
    ¬ ((∀ k : ℤ, 10 ≤ k → k < 15 →
          early_late test_window k (truncQ (keyfob_make_msg 24000 1).d_samples_per_bit) = 1) ∧
        (early_late test_window 15 (truncQ (keyfob_make_msg 24000 1).d_samples_per_bit) = 0 ∨
          early_late test_window 15 (truncQ (keyfob_make_msg 24000 1).d_samples_per_bit)
            = -1)) := by
  have h14 : early_late test_window 14
      (truncQ (keyfob_make_msg 24000 1).d_samples_per_bit) = 0 := by decide!
  refine ⟨by decide!, by decide!, h14, fun h => ?_⟩
  have := h.1 14 (by decide) (by decide)
  rw [h14] at this
  exact absurd this (by decide)

/-- C14, amended. Bit-centre tracker: when the tracker loop of line 169 ends from the
anchor `a`, the working index `c` it leaves is the index after the first index at or after
`a` at which `early_late` is `0` or `-1` (the `i++` of the loop condition also runs on the
evaluation that ends the loop): `c ≥ a + 1`, `early_late` is `+1` at every index in
`a..c-2` and is `0` or `-1` at `c-1`; and a pass of the loop body that ends has run the rate
search at `c`, taken `ref = in[c]/2`, validated at `c` and, on success, sliced at `c`. -/
theorem tracker_hands_on_index_after_stop (fuel : ℕ) (self : keyfob_msg) (inp : ℤ → ℚ)
    (a c : ℤ) (hc : bit_center fuel inp (truncQ self.d_samples_per_bit) a = some c) :
    a + 1 ≤ c ∧
    (∀ k, a ≤ k → k < c - 1 → early_late inp k (truncQ self.d_samples_per_bit) = 1) ∧
    (early_late inp (c - 1) (truncQ self.d_samples_per_bit) = 0 ∨
      early_late inp (c - 1) (truncQ self.d_samples_per_bit) = -1) ∧
    (∀ r, work_body fuel self inp a = some r → preamble_candidate self inp a = true →
      ∃ temp_bitrate temp_spb,
        rate_search self inp c fuel self.d_bitrate self.d_samples_per_bit
          = some (temp_bitrate, temp_spb) ∧
        ((its_on inp c temp_spb (inp c / 2) = false ∧
            r = { self := self, posted := [],
                  i := truncQ ((c : ℚ) + 128 * self.d_samples_per_bit) }) ∨
         (its_on inp c temp_spb (inp c / 2) = true ∧
            r = { self := { self with d_bitrate := temp_bitrate,
                                      d_samples_per_bit := temp_spb }
                  posted := [{ ref := inp c / 2
                               addr_bits := addr_bits inp c temp_spb (inp c / 2)
                               switch_bits := switch_bits inp c temp_spb (inp c / 2) }]
                  i := c + truncQ (128 * temp_spb) }))) := by
  obtain ⟨h1, h2, h3⟩ := bit_center_spec inp _ fuel a c hc
  refine ⟨by omega, fun k hk1 hk2 => ?_, ?_, fun r hr hcand => ?_⟩
  · have hpos := h3 k hk1 hk2
    rcases early_late_cases inp k (truncQ self.d_samples_per_bit) with e | e | e
    · rw [e] at hpos; exact absurd hpos (by decide)
    · rw [e] at hpos; exact absurd hpos (by decide)
    · exact e
  · rcases early_late_cases inp (c - 1) (truncQ self.d_samples_per_bit) with e | e | e
    · exact Or.inr e
    · exact Or.inl e
    · rw [e] at h2; exact absurd (by decide) h2
  · rcases work_body_cases fuel self inp a r hr with
      ⟨hno, -⟩ | ⟨c', tb, tspb, -, hb, hrs, hres⟩
    · rw [hcand] at hno; cases hno
    · rw [hc] at hb
      cases hb
      exact ⟨tb, tspb, hrs, hres⟩

/-- Witness for C14: the tracker on the test vector, from the anchor 10 to index 15. -/
theorem tracker_hands_on_index_after_stop_witness :
    bit_center 20 test_window (truncQ (keyfob_make_msg 24000 1).d_samples_per_bit) 10
      = some 15 ∧
    ((10 : ℤ) + 1 ≤ 15 ∧
      (∀ k : ℤ, 10 ≤ k → k < 15 - 1 →
        early_late test_window k (truncQ (keyfob_make_msg 24000 1).d_samples_per_bit) = 1) ∧
      (early_late test_window (15 - 1) (truncQ (keyfob_make_msg 24000 1).d_samples_per_bit) = 0 ∨
        early_late test_window (15 - 1) (truncQ (keyfob_make_msg 24000 1).d_samples_per_bit)
          = -1)) :=
  ⟨by decide!,
    (tracker_hands_on_index_after_stop 20 (keyfob_make_msg 24000 1) test_window 10 15
      (by decide!)).1,
    (tracker_hands_on_index_after_stop 20 (keyfob_make_msg 24000 1) test_window 10 15
      (by decide!)).2.1,
    (tracker_hands_on_index_after_stop 20 (keyfob_make_msg 24000 1) test_window 10 15
      (by decide!)).2.2.1⟩

theorem bit_energy_succ_sub (inp : ℤ → ℚ) (c w : ℤ) (hw : 2 < w) :
    bit_energy inp (c + 1) w - bit_energy inp c w = inp (c + w / 2) - inp (c + 1 - w / 2) := by
  rw [bit_energy_wide inp (c + 1) w hw, bit_energy_wide inp c w hw]
  have hN : ((2 * (w / 2) - 1).toNat : ℤ) = 2 * (w / 2) - 1 := Int.toNat_of_nonneg (by omega)
  have key := Finset.sum_range_sub (fun k : ℕ => inp (c + (1 - w / 2 + (k : ℤ))))
    (2 * (w / 2) - 1).toNat
  simp only at key
  have e1 : ∀ k : ℕ, c + 1 + (1 - w / 2 + (k : ℤ)) = c + (1 - w / 2 + ((k + 1 : ℕ) : ℤ)) := by
    intro k; push_cast; ring
  simp only [e1]
  rw [← Finset.sum_sub_distrib, key, hN]
  have e2 : c + (1 - w / 2 + (2 * (w / 2) - 1)) = c + w / 2 := by ring
  have e3 : c + (1 - w / 2 + ((0 : ℕ) : ℤ)) = c + 1 - w / 2 := by push_cast; ring
  rw [e2, e3]

/-- For a chip wider than two samples `early_late` compares the two samples that enter
the chip window with the two that leave it. -/
theorem early_late_wide (inp : ℤ → ℚ) (c w : ℤ) (hw : 2 < w) :
    early_late inp c w =
      if inp (c - w / 2) > inp (c - 1 + w / 2) then -1
      else if inp (c + w / 2) > inp (c + 1 - w / 2) then 1
      else 0 := by
  have h1 := bit_energy_succ_sub inp (c - 1) w hw
  have h2 := bit_energy_succ_sub inp c w hw
  have e1 : c - 1 + 1 = c := by ring
  rw [e1] at h1
  unfold early_late
  have e3 : c + -1 = c - 1 := by ring
  rw [e3, add_zero]
  dsimp only
  have c1 : (bit_energy inp (c - 1) w > bit_energy inp c w) ↔
      (inp (c - w / 2) > inp (c - 1 + w / 2)) := by
    constructor <;> intro h <;> linarith
  have c2 : (bit_energy inp (c + 1) w > bit_energy inp c w) ↔
      (inp (c + w / 2) > inp (c + 1 - w / 2)) := by
    constructor <;> intro h <;> linarith
  simp only [c1, c2]

theorem pulse_early_late (A : ℚ) (p s c : ℤ) (hs : 2 < s) (hA : 0 < A) (hc : p ≤ c) :
    (c ≤ p + s / 2 - 2 → early_late (pulse_window A p s) c s = 1) ∧
    (p + s / 2 - 1 ≤ c → 2 * c ≤ 2 * p + s - 1 → early_late (pulse_window A p s) c s = 0) := by
  rw [early_late_wide _ c s hs]
  constructor
  · intro h
    have v1 : pulse_window A p s (c - s / 2) = 0 := by
      unfold pulse_window; rw [if_neg (by omega)]
    have v2 : pulse_window A p s (c + s / 2) = A := by
      unfold pulse_window; rw [if_pos (by omega)]
    have v3 : pulse_window A p s (c + 1 - s / 2) = 0 := by
      unfold pulse_window; rw [if_neg (by omega)]
    have v4 : 0 ≤ pulse_window A p s (c - 1 + s / 2) := by
      unfold pulse_window; split
      · exact hA.le
      · exact le_refl 0
    rw [v1, v2, v3, if_neg (by linarith), if_pos hA]
  · intro h1 h2
    have v3 : pulse_window A p s (c + 1 - s / 2) = A := by
      unfold pulse_window; rw [if_pos (by omega)]
    have v4 : pulse_window A p s (c - 1 + s / 2) = A := by
      unfold pulse_window; rw [if_pos (by omega)]
    have v1 : pulse_window A p s (c - s / 2) ≤ A := by
      unfold pulse_window; split
      · exact le_refl A
      · exact hA.le
    have v2 : pulse_window A p s (c + s / 2) ≤ A := by
      unfold pulse_window; split
      · exact le_refl A
      · exact hA.le
    rw [v3, v4, if_neg (by linarith), if_neg (by linarith)]

/-- The tracker loop run forward: if `early_late` is positive from the anchor `a` up to
`c0` and not positive at `c0`, the loop ends with index `c0 + 1`. -/
theorem bit_center_run (inp : ℤ → ℚ) (w : ℤ) :
    ∀ (n fuel : ℕ) (a c0 : ℤ), c0 - a = n → n < fuel →
      (∀ k, a ≤ k → k < c0 → early_late inp k w > 0) → ¬ early_late inp c0 w > 0 →
      bit_center fuel inp w a = some (c0 + 1) := by
  intro n
  induction n with
  | zero =>
    intro fuel a c0 hn hf _ hstop
    obtain ⟨f, rfl⟩ : ∃ f, fuel = f + 1 := ⟨fuel - 1, by omega⟩
    have e : a = c0 := by simp at hn; omega
    rw [bit_center, e, if_neg hstop]
  | succ n ih =>
    intro fuel a c0 hn hf hrun hstop
    obtain ⟨f, rfl⟩ : ∃ f, fuel = f + 1 := ⟨fuel - 1, by omega⟩
    rw [bit_center, if_pos (hrun a (le_refl a) (by push_cast at hn; omega))]
    exact ih f (a + 1) c0 (by push_cast at hn; omega) (by omega)
      (fun k h1 h2 => hrun k (by omega) h2) hstop

/-- C15. Tracker termination on a clean pulse: for a whole number `s > 2` of samples per
bit and a window holding a single rectangular pulse of amplitude `A > 0`, `s` samples wide
from index `p`, started at any anchor `a` inside the pulse and not after its centre
(`p ≤ a ≤ p + (s-1)/2`), the tracker loop of `work` ends (fuel `s` suffices) after at most
`s` advances of the index, `early_late` is `+1` at every index before the one that ends the
loop, and the value that ends it is `0`. -/
theorem tracker_terminates_on_pulse (self : keyfob_msg) (A : ℚ) (p a s : ℤ) (fuel : ℕ)
    (hs : 2 < s) (hspb : self.d_samples_per_bit = (s : ℚ)) (hA : 0 < A)
    (ha0 : p ≤ a) (ha1 : 2 * a ≤ 2 * p + s - 1) (hfuel : s ≤ fuel) :
    ∃ c, bit_center fuel (pulse_window A p s) (truncQ self.d_samples_per_bit) a = some c ∧
      c - a ≤ s ∧
      early_late (pulse_window A p s) (c - 1) (truncQ self.d_samples_per_bit) = 0 ∧
      ∀ k, a ≤ k → k < c - 1 →
        early_late (pulse_window A p s) k (truncQ self.d_samples_per_bit) = 1 := by
  rw [hspb, truncQ_intCast]
  have hrun : ∀ k, a ≤ k → k < max a (p + s / 2 - 1) →
      early_late (pulse_window A p s) k s = 1 := fun k h1 h2 =>
    (pulse_early_late A p s k hs hA (by omega)).1 (by omega)
  have hstop : early_late (pulse_window A p s) (max a (p + s / 2 - 1)) s = 0 :=
    (pulse_early_late A p s _ hs hA (by omega)).2 (by omega) (by omega)
  refine ⟨max a (p + s / 2 - 1) + 1, ?_, by omega, ?_, fun k h1 h2 => hrun k h1 (by omega)⟩
  · exact bit_center_run _ _ (max a (p + s / 2 - 1) - a).toNat fuel a _ (by omega) (by omega)
      (fun k h1 h2 => by rw [hrun k h1 h2]; decide) (by rw [hstop]; decide)
  · rw [add_sub_cancel_right]
    exact hstop

/-- Witness for C15: a pulse of ten samples from index 10, anchored at its first sample. -/
theorem tracker_terminates_on_pulse_witness :
    ((2 : ℤ) < 10 ∧ (keyfob_make_msg 24000 1).d_samples_per_bit = ((10 : ℤ) : ℚ) ∧
      (0 : ℚ) < 5 ∧ (10 : ℤ) ≤ 10 ∧ 2 * (10 : ℤ) ≤ 2 * 10 + 10 - 1 ∧
      (10 : ℤ) ≤ ((10 : ℕ) : ℤ)) ∧
    ∃ c, bit_center 10 (pulse_window 5 10 10)
        (truncQ (keyfob_make_msg 24000 1).d_samples_per_bit) 10 = some c ∧
      c - 10 ≤ 10 ∧
      early_late (pulse_window 5 10 10) (c - 1)
        (truncQ (keyfob_make_msg 24000 1).d_samples_per_bit) = 0 ∧
      ∀ k, 10 ≤ k → k < c - 1 →
        early_late (pulse_window 5 10 10) k
          (truncQ (keyfob_make_msg 24000 1).d_samples_per_bit) = 1 :=
  ⟨⟨by decide, by decide!, by decide!, by decide, by decide, by decide⟩,
    tracker_terminates_on_pulse (keyfob_make_msg 24000 1) 5 10 10 10 10 (by decide)
      (by decide!) (by decide!) (by decide) (by decide) (by decide)⟩

/-- C16. `get_energy_diff` is the reference discriminant: for a whole number `s` of
samples per bit, `get_energy_diff(in + i, s)` is the sum over the 36 symbols `k` of the
chip energy `bit_energy(·, s)` at the expected-one position `i + s*(15+3k)` minus the chip
energy at the expected-zero position `i + s*(13+3k)`. -/
theorem get_energy_diff_whole (inp : ℤ → ℚ) (i s : ℤ) :
    get_energy_diff inp i (s : ℚ) =
      ∑ k in Finset.range 36,
        (bit_energy inp (i + s * (15 + 3 * k)) s - bit_energy inp (i + s * (13 + 3 * k)) s) := by
  rw [get_energy_diff_eq_sum, Finset.sum_sub_distrib]
  simp only [truncQ_int_mul, truncQ_intCast]

theorem get_clock_rate_dir_eq (self : keyfob_msg) (inp : ℤ → ℚ) (c : ℤ) (b : ℚ) :
    get_clock_rate_dir self inp c b =
      if energy_diff_at self inp c (b - self.d_bitrate_step) > energy_diff_at self inp c b
        then -1
      else if energy_diff_at self inp c (b + self.d_bitrate_step) > energy_diff_at self inp c b
        then 1
      else 0 := rfl

/-- A rate search that ends, ends at a rate where `get_clock_rate_dir` is zero. -/
theorem rate_search_stop_dir (self : keyfob_msg) (inp : ℤ → ℚ) (i : ℤ) :
    ∀ (fuel : ℕ) (tb tspb r s' : ℚ),
      rate_search self inp i fuel tb tspb = some (r, s') →
      get_clock_rate_dir self inp i r = 0 := by
  intro fuel
  induction fuel with
  | zero => intro tb tspb r s' h; simp [rate_search] at h
  | succ k ih =>
    intro tb tspb r s' h
    rw [rate_search] at h
    split at h
    · exact ih _ _ _ _ h
    · split at h
      · exact ih _ _ _ _ h
      · dsimp only at h
        split at h
        · next hd =>
          simp only [Option.some.injEq, Prod.mk.injEq] at h
          rw [← h.1]
          exact hd
        · exact ih _ _ _ _ h

/-- C17. Local maximum at stop: `get_clock_rate_dir(bitrate)` is `-1` when the discriminant
at `bitrate - step` exceeds the one at `bitrate`, otherwise `+1` when the discriminant at
`bitrate + step` exceeds it, otherwise `0`; a rate search that stops at rate `r` has
`energyDiff(r) ≥ energyDiff(r + step)` and `energyDiff(r) ≥ energyDiff(r - step)`; and at an
in-range rate that neither neighbour exceeds (ties included) the search stops without
moving. -/
theorem local_maximum_at_stop (self : keyfob_msg) (inp : ℤ → ℚ) (c : ℤ) (fuel : ℕ)
    (tb tspb r s' : ℚ) (h : rate_search self inp c fuel tb tspb = some (r, s')) :
    (∀ b : ℚ, get_clock_rate_dir self inp c b =
      if energy_diff_at self inp c (b - self.d_bitrate_step) > energy_diff_at self inp c b
        then -1
      else if energy_diff_at self inp c (b + self.d_bitrate_step) > energy_diff_at self inp c b
        then 1
      else 0) ∧
    energy_diff_at self inp c r ≥ energy_diff_at self inp c (r + self.d_bitrate_step) ∧
    energy_diff_at self inp c r ≥ energy_diff_at self inp c (r - self.d_bitrate_step) ∧
    (∀ (b t : ℚ) (f : ℕ), ¬ b > self.d_bitrate_max → ¬ b < self.d_bitrate_min →
      energy_diff_at self inp c (b - self.d_bitrate_step) ≤ energy_diff_at self inp c b →
      energy_diff_at self inp c (b + self.d_bitrate_step) ≤ energy_diff_at self inp c b →
      rate_search self inp c (f + 1) b t = some (b, t)) := by
  have hd := rate_search_stop_dir self inp c fuel tb tspb r s' h
  rw [get_clock_rate_dir_eq] at hd
  refine ⟨fun b => get_clock_rate_dir_eq self inp c b, ?_, ?_, ?_⟩
  · by_contra hlt
    split at hd
    · cases hd
    · rw [if_pos (not_le.mp hlt)] at hd
      cases hd
  · by_contra hlt
    rw [if_pos (not_le.mp hlt)] at hd
    cases hd
  · intro b t f h1 h2 h3 h4
    refine rate_search_break self inp c f b t h1 h2 ?_
    rw [get_clock_rate_dir_eq, if_neg (not_lt.mpr h3), if_neg (not_lt.mpr h4)]

/-- Witness for C17: the rate search on the test vector, locked at index 15. -/
theorem local_maximum_at_stop_witness :
    rate_search (keyfob_make_msg 24000 1) test_window 15 20 2400 10 = some (2400, 10) ∧
    energy_diff_at (keyfob_make_msg 24000 1) test_window 15 2400 ≥
      energy_diff_at (keyfob_make_msg 24000 1) test_window 15
        (2400 + (keyfob_make_msg 24000 1).d_bitrate_step) ∧
    energy_diff_at (keyfob_make_msg 24000 1) test_window 15 2400 ≥
      energy_diff_at (keyfob_make_msg 24000 1) test_window 15
        (2400 - (keyfob_make_msg 24000 1).d_bitrate_step) :=
  ⟨by decide!,
    (local_maximum_at_stop (keyfob_make_msg 24000 1) test_window 15 20 2400 10 2400 10
      (by decide!)).2.1,
    (local_maximum_at_stop (keyfob_make_msg 24000 1) test_window 15 20 2400 10 2400 10
      (by decide!)).2.2.1⟩

/-! ### Scan position and sample positions -/

/-- C18 as stated fails: on the test vector the loop body locks at index 15 and commits ten
samples per bit; it leaves `i = 15 + 1280`, and the `i++` of the `for` loop makes
`15 + 1280 + 1`, not `15 + 128*10`, the next index the scan examines. -/
theorem skip_lands_one_further :
    work_body 20 (keyfob_make_msg 24000 1) test_window 10 = some test_body_result ∧
    bit_center 20 test_window (truncQ (keyfob_make_msg 24000 1).d_samples_per_bit) 10
      = some 15 ∧
    test_body_result.self.d_samples_per_bit = ((10 : ℤ) : ℚ) ∧
    work_loop test_window 2000 21 (keyfob_make_msg 24000 1) [] 10 =
      work_loop test_window 2000 20 test_body_result.self test_body_result.posted
        (15 + 128 * 10 + 1) ∧
    ¬ (test_body_result.i + 1 = 15 + 128 * 10) := by
  refine ⟨by decide!, by decide!, by decide!, ?_, by decide!⟩
  rw [work_loop_succ, if_pos (by decide)]
  have h : work_body 20 (keyfob_make_msg 24000 1) test_window 10 = some test_body_result := by
    decide!
  rw [h]
  rfl

/-- C18, amended. Skip past a handled packet: with the tracker locked at index `c`, after
a payload validation failure the body leaves `i = c + 128*n` for the whole number `n` of
samples per bit in force before the attempt (`d_samples_per_bit`; the searched value is not
used), after a successful emit it leaves `i = c + 128*n` for the committed whole number `n`
of samples per bit; in both cases the `i++` of the `for` loop makes `c + 128*n + 1` the next
index examined, and for `n ≥ 0` that index lies after the scan index of the attempt. -/
theorem skip_past_packet (fuel : ℕ) (self : keyfob_msg) (inp : ℤ → ℚ) (i c : ℤ)
    (temp_bitrate temp_spb : ℚ) (r : BodyResult)
    (h : work_body fuel self inp i = some r)
    (hcand : preamble_candidate self inp i = true)
    (hc : bit_center fuel inp (truncQ self.d_samples_per_bit) i = some c)
    (hr : rate_search self inp c fuel self.d_bitrate self.d_samples_per_bit
      = some (temp_bitrate, temp_spb)) :
    (its_on inp c temp_spb (inp c / 2) = false →
      ∀ n : ℤ, self.d_samples_per_bit = (n : ℚ) →
        r.i + 1 = c + 128 * n + 1 ∧ (0 ≤ n → i < r.i + 1)) ∧
    (its_on inp c temp_spb (inp c / 2) = true →
      ∀ n : ℤ, r.self.d_samples_per_bit = (n : ℚ) →
        r.i + 1 = c + 128 * n + 1 ∧ (0 ≤ n → i < r.i + 1)) := by
  have hic : i < c := (bit_center_spec inp _ fuel i c hc).1
  constructor
  · intro ho n hn
    rw [work_body_reject fuel self inp i c temp_bitrate temp_spb hcand hc hr ho] at h
    simp only [Option.some.injEq] at h
    subst h
    have e : truncQ ((c : ℚ) + 128 * self.d_samples_per_bit) = c + 128 * n := by
      rw [hn]
      have : (c : ℚ) + 128 * (n : ℚ) = ((c + 128 * n : ℤ) : ℚ) := by push_cast; ring
      rw [this, truncQ_intCast]
    simp only [e]
    exact ⟨trivial, fun h0 => by omega⟩
  · intro ho n hn
    rw [work_body_emit fuel self inp i c temp_bitrate temp_spb hcand hc hr ho] at h
    simp only [Option.some.injEq] at h
    subst h
    simp only at hn
    have e : truncQ (128 * temp_spb) = 128 * n := by
      rw [hn]
      have : (128 : ℚ) * (n : ℚ) = ((128 * n : ℤ) : ℚ) := by push_cast; ring
      rw [this, truncQ_intCast]
    simp only [e]
    exact ⟨trivial, fun h0 => by omega⟩

/-- Witness for C18: the pass of the loop body that decodes the test vector. -/
theorem skip_past_packet_witness :
    (work_body 20 (keyfob_make_msg 24000 1) test_window 10 = some test_body_result ∧
      preamble_candidate (keyfob_make_msg 24000 1) test_window 10 = true ∧
      bit_center 20 test_window (truncQ (keyfob_make_msg 24000 1).d_samples_per_bit) 10
        = some 15 ∧
      rate_search (keyfob_make_msg 24000 1) test_window 15 20
          (keyfob_make_msg 24000 1).d_bitrate (keyfob_make_msg 24000 1).d_samples_per_bit
        = some (2400, 10) ∧
      its_on test_window 15 10 (test_window 15 / 2) = true ∧
      test_body_result.self.d_samples_per_bit = ((10 : ℤ) : ℚ)) ∧
    (test_body_result.i + 1 = 15 + 128 * 10 + 1 ∧
      ((0 : ℤ) ≤ 10 → (10 : ℤ) < test_body_result.i + 1)) :=
  ⟨⟨by decide!, by decide!, by decide!, by decide!, by decide!, by decide!⟩,
    (skip_past_packet 20 (keyfob_make_msg 24000 1) test_window 10 15 2400 10 test_body_result
      (by decide!) (by decide!) (by decide!) (by decide!)).2 (by decide!) 10 (by decide!)⟩

/-- The integers below `2^24` in absolute value are binary32 values: the products of a
whole number of samples per bit with the bit offsets are exact in the source. -/
theorem binary32_value_intCast (n : ℤ) (hn : |n| < 2 ^ 24) : binary32_value (n : ℚ) :=
  ⟨n, 0, hn, by decide, by decide, by rw [zpow_zero, mul_one]⟩

/-- Binary32 products that are not exact can leave the floor of the exact product.  With
`spb = 14979657 * 2^-22`, the binary32 quotient `8000/2240`, the exact product with the
preamble offset 7 is below 25 and its binary32 rounding is 25, so `int` of the `float`
product is 25 where the floor of the exact product is 24.  At 20000 samples per second the
binary32 quotient `20000/2400` is `8738133 * 2^-20`, and `int` of its binary32 product with
the offset 15 is 124, where the exact product `25/3 * 15` is 125. -/
theorem binary32_product_leaves_floor :
    binary32_round (8000 / 2240) = 14979657 / 4194304 ∧
    truncQ (binary32_round ((14979657 / 4194304 : ℚ) * ((7 : ℤ) : ℚ))) = 25 ∧
    ⌊(14979657 / 4194304 : ℚ) * ((7 : ℤ) : ℚ)⌋ = 24 ∧
    binary32_round (20000 / 2400) = 8738133 / 1048576 ∧
    truncQ (binary32_round (binary32_round (20000 / 2400) * ((15 : ℤ) : ℚ))) = 124 ∧
    ⌊(keyfob_make_msg 20000 1).d_samples_per_bit * ((15 : ℤ) : ℚ)⌋ = 125 := by
  refine ⟨by decide!, by decide!, by decide!, by decide!, by decide!, by decide!⟩

theorem get_clock_rate_dir_cases (self : keyfob_msg) (inp : ℤ → ℚ) (c : ℤ) (r : ℚ) :
    get_clock_rate_dir self inp c r = -1 ∨ get_clock_rate_dir self inp c r = 0 ∨
      get_clock_rate_dir self inp c r = 1 := by
  rw [get_clock_rate_dir_eq]
  split
  · exact Or.inl rfl
  · split
    · exact Or.inr (Or.inr rfl)
    · exact Or.inr (Or.inl rfl)

/-- A non-zero direction points at a neighbour with a strictly larger discriminant. -/
theorem get_clock_rate_dir_ascent (self : keyfob_msg) (inp : ℤ → ℚ) (c : ℤ) (r : ℚ)
    (h : get_clock_rate_dir self inp c r ≠ 0) :
    energy_diff_at self inp c (r + (get_clock_rate_dir self inp c r : ℚ) * self.d_bitrate_step)
      > energy_diff_at self inp c r := by
  rw [get_clock_rate_dir_eq] at h ⊢
  split
  · next h1 =>
    have e : r + ((-1 : ℤ) : ℚ) * self.d_bitrate_step = r - self.d_bitrate_step := by
      push_cast; ring
    rw [e]
    exact h1
  · next h1 =>
    rw [if_neg h1] at h
    split
    · next h2 =>
      have e : r + ((1 : ℤ) : ℚ) * self.d_bitrate_step = r + self.d_bitrate_step := by
        push_cast; ring
      rw [e]
      exact h2
    · next h2 =>
      rw [if_neg h2] at h
      exact absurd rfl h

/-- After a step in direction `d` the search does not turn back. -/
theorem get_clock_rate_dir_no_reverse (self : keyfob_msg) (inp : ℤ → ℚ) (c : ℤ) (r : ℚ)
    (h : get_clock_rate_dir self inp c r ≠ 0) :
    get_clock_rate_dir self inp c
        (r + (get_clock_rate_dir self inp c r : ℚ) * self.d_bitrate_step)
      ≠ -get_clock_rate_dir self inp c r := by
  intro hrev
  have h1 := get_clock_rate_dir_ascent self inp c r h
  have hne : get_clock_rate_dir self inp c
      (r + (get_clock_rate_dir self inp c r : ℚ) * self.d_bitrate_step) ≠ 0 := by
    rw [hrev]
    exact neg_ne_zero.mpr h
  have h2 := get_clock_rate_dir_ascent self inp c _ hne
  rw [hrev] at h2
  have e : r + (get_clock_rate_dir self inp c r : ℚ) * self.d_bitrate_step +
      ((-get_clock_rate_dir self inp c r : ℤ) : ℚ) * self.d_bitrate_step = r := by
    push_cast; ring
  rw [e] at h2
  exact lt_irrefl _ (lt_trans h1 h2)

theorem rate_step_ascent (self : keyfob_msg) (inp : ℤ → ℚ) (c : ℤ) (r r' : ℚ)
    (h : rate_step self inp c r r') :
    energy_diff_at self inp c r' > energy_diff_at self inp c r := by
  obtain ⟨-, -, hd, e⟩ := h
  rw [e]
  exact get_clock_rate_dir_ascent self inp c r hd

theorem rate_path_ascent (self : keyfob_msg) (inp : ℤ → ℚ) (c : ℤ) (r r' : ℚ)
    (h : Relation.TransGen (rate_step self inp c) r r') :
    energy_diff_at self inp c r' > energy_diff_at self inp c r := by
  induction h with
  | single h1 => exact rate_step_ascent self inp c _ _ h1
  | tail _ h2 ih => exact lt_trans ih (rate_step_ascent self inp c _ _ h2)

/-- Walking in one direction `d` from `r`: if `n` further steps of `d * step` would leave
the bounds, the search from `r` either ends or reaches a rate outside the bounds. -/
theorem rate_search_ends_or_leaves (self : keyfob_msg) (inp : ℤ → ℚ) (c : ℤ) (d : ℤ)
    (hd : d = 1 ∨ d = -1) :
    ∀ (n : ℕ) (r t : ℚ), get_clock_rate_dir self inp c r ≠ -d →
      (r + (n : ℚ) * ((d : ℚ) * self.d_bitrate_step) > self.d_bitrate_max ∨
        r + (n : ℚ) * ((d : ℚ) * self.d_bitrate_step) < self.d_bitrate_min) →
      (∃ fuel res, rate_search self inp c fuel r t = some res) ∨
      (∃ r', Relation.ReflTransGen (rate_step self inp c) r r' ∧
        (r' > self.d_bitrate_max ∨ r' < self.d_bitrate_min)) := by
  intro n
  induction n with
  | zero =>
    intro r t _ hout
    right
    refine ⟨r, Relation.ReflTransGen.refl, ?_⟩
    simpa using hout
  | succ n ih =>
    intro r t hdir hout
    by_cases h1 : r > self.d_bitrate_max
    · exact Or.inr ⟨r, Relation.ReflTransGen.refl, Or.inl h1⟩
    by_cases h2 : r < self.d_bitrate_min
    · exact Or.inr ⟨r, Relation.ReflTransGen.refl, Or.inr h2⟩
    by_cases h0 : get_clock_rate_dir self inp c r = 0
    · exact Or.inl ⟨1, _, rate_search_break self inp c 0 r t h1 h2 h0⟩
    have hdd : get_clock_rate_dir self inp c r = d := by
      rcases get_clock_rate_dir_cases self inp c r with e | e | e <;>
        rcases hd with hd | hd <;> subst hd <;> simp_all
    have hstep : rate_step self inp c r (r + (d : ℚ) * self.d_bitrate_step) :=
      ⟨h1, h2, h0, by rw [hdd]⟩
    have hnr := get_clock_rate_dir_no_reverse self inp c r h0
    rw [hdd] at hnr
    have hout' : r + (d : ℚ) * self.d_bitrate_step +
          (n : ℚ) * ((d : ℚ) * self.d_bitrate_step) > self.d_bitrate_max ∨
        r + (d : ℚ) * self.d_bitrate_step +
          (n : ℚ) * ((d : ℚ) * self.d_bitrate_step) < self.d_bitrate_min := by
      have e : r + (d : ℚ) * self.d_bitrate_step + (n : ℚ) * ((d : ℚ) * self.d_bitrate_step)
          = r + ((n + 1 : ℕ) : ℚ) * ((d : ℚ) * self.d_bitrate_step) := by push_cast; ring
      rw [e]
      exact hout
    rcases ih (r + (d : ℚ) * self.d_bitrate_step)
        (self.d_rate / (r + (d : ℚ) * self.d_bitrate_step)) hnr hout' with
      ⟨fuel, res, hres⟩ | ⟨r', hr', ho⟩
    · left
      refine ⟨fuel + 1, res, ?_⟩
      rw [rate_search_step self inp c fuel r t h1 h2 h0, hdd]
      exact hres
    · exact Or.inr ⟨r', Relation.ReflTransGen.head hstep hr', ho⟩

/-- C20. Strict ascent of the rate search (exact arithmetic). Each step of the search goes
from a rate `r` to `r' = r + step` or `r' = r - step` with `energyDiff(r') > energyDiff(r)`
(and the loop continues from `r'` with `sampleRate / r'`); hence along any run the
discriminant strictly increases and no rate is visited twice; two consecutive steps go the
same way; and a search started inside `[bitrateMin, bitrateMax]` that never ends has
stepped to a rate outside `[bitrateMin, bitrateMax]`. -/
theorem strict_ascent (self : keyfob_msg) (inp : ℤ → ℚ) (c : ℤ) (tb tspb : ℚ)
    (hlo : self.d_bitrate_min ≤ tb) (hhi : tb ≤ self.d_bitrate_max) :
    (∀ (r r' t : ℚ) (f : ℕ), rate_step self inp c r r' →
      (r' = r + self.d_bitrate_step ∨ r' = r - self.d_bitrate_step) ∧
      energy_diff_at self inp c r' > energy_diff_at self inp c r ∧
      rate_search self inp c (f + 1) r t = rate_search self inp c f r' (self.d_rate / r')) ∧
    (∀ r r' : ℚ, Relation.TransGen (rate_step self inp c) r r' →
      energy_diff_at self inp c r' > energy_diff_at self inp c r ∧ r' ≠ r) ∧
    (∀ r r' r'' : ℚ, rate_step self inp c r r' → rate_step self inp c r' r'' →
      (r' = r + self.d_bitrate_step → r'' = r' + self.d_bitrate_step) ∧
      (r' = r - self.d_bitrate_step → r'' = r' - self.d_bitrate_step)) ∧
    ((∀ fuel : ℕ, rate_search self inp c fuel tb tspb = none) →
      ∃ r, Relation.TransGen (rate_step self inp c) tb r ∧
        (r > self.d_bitrate_max ∨ r < self.d_bitrate_min)) := by
  have step_form : ∀ r r' : ℚ, rate_step self inp c r r' →
      (r' = r + self.d_bitrate_step ∨ r' = r - self.d_bitrate_step) := by
    intro r r' h
    obtain ⟨-, -, hd, e⟩ := h
    rcases get_clock_rate_dir_cases self inp c r with d | d | d
    · right; rw [e, d]; push_cast; ring
    · exact absurd d hd
    · left; rw [e, d]; push_cast; ring
  have path_ne : ∀ r r' : ℚ, Relation.TransGen (rate_step self inp c) r r' → r' ≠ r := by
    intro r r' h e
    have := rate_path_ascent self inp c r r' h
    rw [e] at this
    exact lt_irrefl _ this
  refine ⟨fun r r' t f h => ⟨step_form r r' h, rate_step_ascent self inp c r r' h, ?_⟩,
    fun r r' h => ⟨rate_path_ascent self inp c r r' h, path_ne r r' h⟩,
    fun r r' r'' h1 h2 => ?_, fun hnone => ?_⟩
  · obtain ⟨h1, h2, hd, e⟩ := h
    rw [rate_search_step self inp c f r t h1 h2 hd, ← e]
  · have h12 : Relation.TransGen (rate_step self inp c) r r'' :=
      Relation.TransGen.tail (Relation.TransGen.single h1) h2
    have hne := path_ne r r'' h12
    constructor
    · intro e
      rcases step_form r' r'' h2 with e2 | e2
      · exact e2
      · exact absurd (by rw [e2, e]; ring) hne
    · intro e
      rcases step_form r' r'' h2 with e2 | e2
      · exact absurd (by rw [e2, e]; ring) hne
      · exact e2
  · have h1 : ¬ tb > self.d_bitrate_max := not_lt.mpr hhi
    have h2 : ¬ tb < self.d_bitrate_min := not_lt.mpr hlo
    by_cases h0 : get_clock_rate_dir self inp c tb = 0
    · have := hnone 1
      rw [rate_search_break self inp c 0 tb tspb h1 h2 h0] at this
      cases this
    have hasc := get_clock_rate_dir_ascent self inp c tb h0
    have hd : get_clock_rate_dir self inp c tb = 1 ∨ get_clock_rate_dir self inp c tb = -1 := by
      rcases get_clock_rate_dir_cases self inp c tb with d | d | d
      · exact Or.inr d
      · exact absurd d h0
      · exact Or.inl d
    have hne : (get_clock_rate_dir self inp c tb : ℚ) * self.d_bitrate_step ≠ 0 := by
      intro e
      rw [e, add_zero] at hasc
      exact lt_irrefl _ hasc
    have hout : ∃ n : ℕ,
        tb + (n : ℚ) * ((get_clock_rate_dir self inp c tb : ℚ) * self.d_bitrate_step)
            > self.d_bitrate_max ∨
        tb + (n : ℚ) * ((get_clock_rate_dir self inp c tb : ℚ) * self.d_bitrate_step)
            < self.d_bitrate_min := by
      rcases lt_or_gt_of_ne hne with hneg | hpos
      · obtain ⟨n, hn⟩ := exists_nat_gt ((self.d_bitrate_min - tb) /
          ((get_clock_rate_dir self inp c tb : ℚ) * self.d_bitrate_step))
        refine ⟨n, Or.inr ?_⟩
        have := (div_lt_iff_of_neg hneg).mp hn
        linarith
      · obtain ⟨n, hn⟩ := exists_nat_gt ((self.d_bitrate_max - tb) /
          ((get_clock_rate_dir self inp c tb : ℚ) * self.d_bitrate_step))
        refine ⟨n, Or.inl ?_⟩
        have := (div_lt_iff₀ hpos).mp hn
        linarith
    obtain ⟨n, hn⟩ := hout
    have hself : get_clock_rate_dir self inp c tb ≠ -get_clock_rate_dir self inp c tb := by
      rcases hd with d | d <;> rw [d] <;> decide
    rcases rate_search_ends_or_leaves self inp c _ hd n tb tspb hself hn with
      ⟨fuel, res, hres⟩ | ⟨r', hr', ho⟩
    · rw [hnone fuel] at hres
      cases hres
    · rcases Relation.reflTransGen_iff_eq_or_transGen.mp hr' with e | hT
      · subst e
        rcases ho with ho | ho
        · exact absurd ho h1
        · exact absurd ho h2
      · exact ⟨r', hT, ho⟩

/-- Witness for C20: the search on `runaway_window`, locked at index 1, started at 2400. -/
theorem strict_ascent_witness :
    ((keyfob_make_msg 4800 (1 / 2)).d_bitrate_min ≤ 2400 ∧
      (2400 : ℚ) ≤ (keyfob_make_msg 4800 (1 / 2)).d_bitrate_max) ∧
    ((∀ fuel : ℕ, rate_search (keyfob_make_msg 4800 (1 / 2)) runaway_window 1 fuel 2400 2
        = none) →
      ∃ r, Relation.TransGen (rate_step (keyfob_make_msg 4800 (1 / 2)) runaway_window 1) 2400 r ∧
        (r > (keyfob_make_msg 4800 (1 / 2)).d_bitrate_max ∨
          r < (keyfob_make_msg 4800 (1 / 2)).d_bitrate_min)) :=
  ⟨⟨by decide!, by decide!⟩,
    (strict_ascent (keyfob_make_msg 4800 (1 / 2)) runaway_window 1 2400 2 (by decide!)
      (by decide!)).2.2.2⟩

/-! ### Checked reads on a bounded window -/

/-- While every read succeeds the checked sum is the unchecked one. -/
theorem sumFor_checked_some (lo hi : ℤ) (f : ℤ → Option ℚ) (g : ℤ → ℚ) (acc : ℚ)
    (h : ∀ k : ℕ, k < (hi - lo).toNat → f (lo + (k : ℤ)) = some (g (lo + (k : ℤ)))) :
    sumFor_checked lo hi f acc = some (sumFor lo hi g acc) := by
  unfold sumFor_checked sumFor
  generalize (hi - lo).toNat = n at h
  induction n with
  | zero => rfl
  | succ k ih =>
    rw [List.range_succ, List.foldlM_append, List.foldl_append,
      ih (fun j hj => h j (by omega))]
    simp [h k (by omega)]

/-- A read outside the window makes the checked sum fail. -/
theorem sumFor_checked_none (lo hi : ℤ) (f : ℤ → Option ℚ) (acc : ℚ) (k : ℕ)
    (hk : k < (hi - lo).toNat) (h : f (lo + (k : ℤ)) = none) :
    sumFor_checked lo hi f acc = none := by
  unfold sumFor_checked
  generalize (hi - lo).toNat = n at hk
  induction n with
  | zero => omega
  | succ j ih =>
    rw [List.range_succ, List.foldlM_append]
    rcases Nat.lt_succ_iff_lt_or_eq.mp hk with hlt | heq
    · rw [ih hlt]
      rfl
    · subst heq
      cases List.foldlM (fun (e : ℚ) (k : ℕ) => (f (lo + (k : ℤ))).map (fun v => e + v)) acc
          (List.range k) with
      | none => rfl
      | some e => simp [h]

theorem bit_energy_checked_some (inp : ℤ → ℚ) (lo hi c w : ℤ) (hw : 2 < w)
    (h1 : lo ≤ c + 1 - w / 2) (h2 : c + w / 2 - 1 ≤ hi) :
    bit_energy_checked (bounded inp lo hi) c w = some (bit_energy inp c w) := by
  unfold bit_energy_checked bit_energy
  rw [if_neg (by omega), if_neg (by omega)]
  have e : w.tdiv 2 = w / 2 := Int.tdiv_eq_ediv (by omega) (by omega)
  rw [e]
  apply sumFor_checked_some
  intro k hk
  unfold bounded
  rw [if_pos (by omega)]

theorem bit_energy_checked_none (inp : ℤ → ℚ) (lo hi c w : ℤ) (hw : 2 < w)
    (h2 : hi < c + w / 2 - 1) :
    bit_energy_checked (bounded inp lo hi) c w = none := by
  unfold bit_energy_checked
  rw [if_neg (by omega)]
  have e : w.tdiv 2 = w / 2 := Int.tdiv_eq_ediv (by omega) (by omega)
  rw [e]
  apply sumFor_checked_none _ _ _ _ (2 * (w / 2) - 2).toNat (by omega)
  unfold bounded
  rw [if_neg (by omega)]

/-- Inside the window the checked early/late gate is the unchecked one. -/
theorem early_late_checked_some (inp : ℤ → ℚ) (lo hi c w : ℤ) (hw : 2 < w)
    (h1 : lo ≤ c - w / 2) (h2 : c + w / 2 ≤ hi) :
    early_late_checked (bounded inp lo hi) c w = some (early_late inp c w) := by
  unfold early_late_checked early_late
  rw [bit_energy_checked_some inp lo hi _ w hw (by omega) (by omega),
    bit_energy_checked_some inp lo hi _ w hw (by omega) (by omega),
    bit_energy_checked_some inp lo hi _ w hw (by omega) (by omega)]
  rfl

/-- When the late gate reaches past the end of the window the checked early/late gate
fails. -/
theorem early_late_checked_none (inp : ℤ → ℚ) (lo hi c w : ℤ) (hw : 2 < w)
    (h1 : lo ≤ c - w / 2) (h2 : hi < c + w / 2) (h3 : c + w / 2 - 1 ≤ hi) :
    early_late_checked (bounded inp lo hi) c w = none := by
  unfold early_late_checked
  rw [bit_energy_checked_some inp lo hi _ w hw (by omega) (by omega),
    bit_energy_checked_some inp lo hi _ w hw (by omega) (by omega),
    bit_energy_checked_none inp lo hi _ w hw (by omega)]
  rfl

theorem creeping_window_add_seven (x : ℤ) :
    creeping_window (x + 7) = creeping_window x + 1 / 100 := by
  unfold creeping_window
  have e1 : (x + 7) % 7 = x % 7 := by omega
  have e2 : (x + 7) / 7 = x / 7 + 1 := by omega
  rw [e1, e2]
  push_cast
  ring

theorem creeping_early_late (c : ℤ) : early_late creeping_window c 8 = 1 := by
  rw [early_late_wide creeping_window c 8 (by decide)]
  have e : (8 : ℤ) / 2 = 4 := by decide
  rw [e]
  have h1 : creeping_window (c - 1 + 4) = creeping_window (c - 4) + 1 / 100 := by
    rw [← creeping_window_add_seven]; congr 1; ring
  have h2 : creeping_window (c + 4) = creeping_window (c + 1 - 4) + 1 / 100 := by
    rw [← creeping_window_add_seven]; congr 1; ring
  rw [h1, h2, if_neg (by linarith), if_pos (by linarith)]

/-- On `creeping_window` cut down to `-9..1338` the tracker walks off the end. -/
theorem creeping_bit_center :
    ∀ (n fuel : ℕ) (c : ℤ), 0 ≤ c → c + n = 1335 → n < fuel →
      bit_center_checked fuel (bounded creeping_window (-9) 1338) 8 c = Run.underrun := by
  intro n
  induction n with
  | zero =>
    intro fuel c _ hc hf
    obtain ⟨f, rfl⟩ : ∃ f, fuel = f + 1 := ⟨fuel - 1, by omega⟩
    rw [bit_center_checked,
      early_late_checked_none creeping_window (-9) 1338 c 8 (by decide) (by omega)
        (by simp at hc; omega) (by simp at hc; omega)]
  | succ n ih =>
    intro fuel c h0 hc hf
    obtain ⟨f, rfl⟩ : ∃ f, fuel = f + 1 := ⟨fuel - 1, by omega⟩
    rw [bit_center_checked,
      early_late_checked_some creeping_window (-9) 1338 c 8 (by decide) (by omega)
        (by push_cast at hc; omega), creeping_early_late]
    simp only
    rw [if_pos (by decide)]
    exact ih f (c + 1) (by omega) (by push_cast at hc ⊢; omega) (by omega)

theorem work_body_checked_underrun (fuel : ℕ) (self : keyfob_msg) (win : ℤ → Option ℚ)
    (i : ℤ) (h1 : preamble_candidate_checked self win i = some true)
    (h2 : bit_center_checked fuel win (truncQ self.d_samples_per_bit) i = Run.underrun) :
    work_body_checked fuel self win i = Run.underrun := by
  unfold work_body_checked
  rw [h1]
  dsimp only
  rw [h2]

theorem work_loop_checked_underrun (win : ℤ → Option ℚ) (noutput_items : ℤ) (fuel : ℕ)
    (self : keyfob_msg) (posted : List Message) (i : ℤ) (h1 : i < noutput_items)
    (h2 : work_body_checked fuel self win i = Run.underrun) :
    work_loop_checked win noutput_items (fuel + 1) self posted i = Run.underrun := by
  rw [work_loop_checked, if_pos h1, h2]

/-- The checked model agrees with the unchecked one on the test vector: with the window
cut down to `-10..1700` the invocation of `work` decodes the same message. -/
theorem work_checked_test_vector :
    work_checked 20 (keyfob_make_msg 24000 1) (bounded test_window (-10) 1700) 11 =
      Run.done { self := keyfob_make_msg 24000 1, posted := [test_message], ret := 1296 } := by
  decide!

/-- C13 at a failing input. A decoder constructed for 19600 samples per second (49/6
samples per bit, bit rate 2400 inside the bounds) scans `noutput_items = 1` index of
`creeping_window`, supplied on the indices `-9..1338`, which cover the lookback of one
chip-width and the lookahead `1 + 150*(19600/2200)` of the claim. The preamble matches at
index 0; every chip energy is larger than the one before it, so `early_late` stays `+1`
and the tracker of line 169 advances until the late gate at working index 1335 reads index
1339, outside the window: the checked tracker and the checked `work` end in `underrun`. -/
theorem tracker_reads_past_window :
    (∀ x : ℤ, -(keyfob_make_msg 19600 (1 / 2)).d_samples_per_bit ≤ (x : ℚ) →
      (x : ℚ) ≤ 1 + 150 * ((keyfob_make_msg 19600 (1 / 2)).d_rate /
        (keyfob_make_msg 19600 (1 / 2)).d_bitrate_min) →
      (bounded creeping_window (-9) 1338 x).isSome = true) ∧
    ((keyfob_make_msg 19600 (1 / 2)).d_bitrate_min ≤ (keyfob_make_msg 19600 (1 / 2)).d_bitrate ∧
      (keyfob_make_msg 19600 (1 / 2)).d_bitrate ≤ (keyfob_make_msg 19600 (1 / 2)).d_bitrate_max) ∧
    preamble_candidate_checked (keyfob_make_msg 19600 (1 / 2))
      (bounded creeping_window (-9) 1338) 0 = some true ∧
    (∀ k : ℕ, bit_center_checked (k + 1336) (bounded creeping_window (-9) 1338)
      (truncQ (keyfob_make_msg 19600 (1 / 2)).d_samples_per_bit) 0 = Run.underrun) ∧
    (∀ k : ℕ, work_checked (k + 1337) (keyfob_make_msg 19600 (1 / 2))
      (bounded creeping_window (-9) 1338) 1 = Run.underrun) := by
  have hw : truncQ (keyfob_make_msg 19600 (1 / 2)).d_samples_per_bit = 8 := by decide!
  have hpre : preamble_candidate_checked (keyfob_make_msg 19600 (1 / 2))
      (bounded creeping_window (-9) 1338) 0 = some true := by decide!
  have htrack : ∀ k : ℕ, bit_center_checked (k + 1336) (bounded creeping_window (-9) 1338)
      (truncQ (keyfob_make_msg 19600 (1 / 2)).d_samples_per_bit) 0 = Run.underrun := by
    intro k
    rw [hw]
    exact creeping_bit_center 1335 (k + 1336) 0 (le_refl 0) (by norm_num) (by omega)
  refine ⟨fun x h1 h2 => ?_, ⟨by decide!, by decide!⟩, hpre, htrack, fun k => ?_⟩
  · have e1 : (keyfob_make_msg 19600 (1 / 2)).d_samples_per_bit = 49 / 6 := by
      norm_num [keyfob_make_msg]
    have e2 : (keyfob_make_msg 19600 (1 / 2)).d_rate /
        (keyfob_make_msg 19600 (1 / 2)).d_bitrate_min = 98 / 11 := by
      norm_num [keyfob_make_msg]
    rw [e1] at h1
    rw [e2] at h2
    have hlo : (-9 : ℤ) ≤ x := by
      by_contra hh
      have : (x : ℚ) ≤ -10 := by exact_mod_cast (by omega : x ≤ -10)
      linarith
    have hhi : x ≤ 1338 := by
      by_contra hh
      have : (1339 : ℚ) ≤ (x : ℚ) := by exact_mod_cast (by omega : (1339 : ℤ) ≤ x)
      linarith
    unfold bounded
    rw [if_pos ⟨hlo, hhi⟩]
    rfl
  · exact work_loop_checked_underrun _ 1 (k + 1336) _ [] 0 (by decide)
      (work_body_checked_underrun _ _ _ 0 hpre (htrack k))

/-! ### The checked model refines the unchecked one

Whenever a checked function returns a value over a window whose samples are those of
`inp`, the unchecked function over `inp` returns the same value. -/

theorem sumFor_checked_eq (lo hi : ℤ) (f : ℤ → Option ℚ) (g : ℤ → ℚ)
    (hfg : ∀ x v, f x = some v → g x = v) :
    ∀ (acc v : ℚ), sumFor_checked lo hi f acc = some v → sumFor lo hi g acc = v := by
  unfold sumFor_checked sumFor
  generalize (hi - lo).toNat = n
  induction n with
  | zero =>
    intro acc v h
    simpa using h
  | succ k ih =>
    intro acc v h
    rw [List.range_succ, List.foldlM_append] at h
    rw [List.range_succ, List.foldl_append]
    cases h1 : List.foldlM (fun (e : ℚ) (k : ℕ) => (f (lo + (k : ℤ))).map (fun v => e + v)) acc
        (List.range k) with
    | none => rw [h1] at h; cases h
    | some e =>
      rw [h1] at h
      rw [ih acc e h1]
      cases h2 : f (lo + (k : ℤ)) with
      | none => simp [h2] at h
      | some y =>
        simp [h2] at h
        simp [hfg _ _ h2, h]

theorem bit_energy_checked_eq (win : ℤ → Option ℚ) (inp : ℤ → ℚ)
    (hw : ∀ x v, win x = some v → inp x = v) (c w : ℤ) (v : ℚ)
    (h : bit_energy_checked win c w = some v) : bit_energy inp c w = v := by
  unfold bit_energy_checked at h
  unfold bit_energy
  split at h
  · next h2 => rw [if_pos h2]; exact hw _ _ h
  · next h2 =>
    rw [if_neg h2]
    exact sumFor_checked_eq _ _ _ _ (fun x y hxy => hw _ _ hxy) 0 v h

theorem early_late_checked_eq (win : ℤ → Option ℚ) (inp : ℤ → ℚ)
    (hw : ∀ x v, win x = some v → inp x = v) (c w d : ℤ)
    (h : early_late_checked win c w = some d) : early_late inp c w = d := by
  unfold early_late_checked at h
  cases h1 : bit_energy_checked win (c + (-1)) w with
  | none => rw [h1] at h; cases h
  | some e =>
    cases h2 : bit_energy_checked win (c + 0) w with
    | none => rw [h1, h2] at h; cases h
    | some n =>
      cases h3 : bit_energy_checked win (c + 1) w with
      | none => rw [h1, h2, h3] at h; cases h
      | some l =>
        rw [h1, h2, h3] at h
        simp only [Option.some_bind, Option.some.injEq] at h
        unfold early_late
        rw [bit_energy_checked_eq win inp hw _ _ _ h1, bit_energy_checked_eq win inp hw _ _ _ h2,
          bit_energy_checked_eq win inp hw _ _ _ h3]
        exact h

/-- A checked loop refines the unchecked loop when each checked step refines the
unchecked step. -/
theorem foldlM_refines {σ : Type} (fM : σ → ℕ → Option σ) (f : σ → ℕ → σ)
    (hf : ∀ s j s', fM s j = some s' → f s j = s') :
    ∀ (l : List ℕ) (init res : σ), l.foldlM fM init = some res → l.foldl f init = res := by
  intro l
  induction l with
  | nil =>
    intro init res h
    simpa using h
  | cons x xs ih =>
    intro init res h
    rw [List.foldlM_cons] at h
    rw [List.foldl_cons]
    cases h1 : fM init x with
    | none => rw [h1] at h; cases h
    | some s1 =>
      rw [h1] at h
      rw [hf _ _ _ h1]
      exact ih s1 res h

theorem get_energy_diff_checked_eq (win : ℤ → Option ℚ) (inp : ℤ → ℚ)
    (hw : ∀ x v, win x = some v → inp x = v) (c : ℤ) (spb v : ℚ)
    (h : get_energy_diff_checked win c spb = some v) : get_energy_diff inp c spb = v := by
  unfold get_energy_diff_checked at h
  unfold get_energy_diff
  rw [Option.map_eq_some'] at h
  obtain ⟨sums, h1, h2⟩ := h
  rw [foldlM_refines _ _ ?_ (List.range 36) (0, 0) sums h1]
  · exact h2
  · intro acc i acc' hstep
    cases hz : bit_energy_checked win (c + (0 + truncQ (spb * ((13 + 3 * i : ℤ) : ℚ))))
        (truncQ spb) with
    | none => rw [hz] at hstep; cases hstep
    | some z =>
      cases ho : bit_energy_checked win (c + (0 + truncQ (spb * ((15 + 3 * i : ℤ) : ℚ))))
          (truncQ spb) with
      | none => rw [hz, ho] at hstep; cases hstep
      | some o =>
        rw [hz, ho] at hstep
        simp only [Option.some_bind, Option.some.injEq] at hstep
        rw [bit_energy_checked_eq win inp hw _ _ _ hz, bit_energy_checked_eq win inp hw _ _ _ ho]
        exact hstep

theorem get_clock_rate_dir_checked_eq (self : keyfob_msg) (win : ℤ → Option ℚ) (inp : ℤ → ℚ)
    (hw : ∀ x v, win x = some v → inp x = v) (c : ℤ) (bitrate : ℚ) (d : ℤ)
    (h : get_clock_rate_dir_checked self win c bitrate = some d) :
    get_clock_rate_dir self inp c bitrate = d := by
  unfold get_clock_rate_dir_checked at h
  cases h1 : get_energy_diff_checked win c (self.d_rate / bitrate) with
  | none => rw [h1] at h; cases h
  | some cur =>
    cases h2 : get_energy_diff_checked win c (self.d_rate / (bitrate + self.d_bitrate_step)) with
    | none => rw [h1, h2] at h; cases h
    | some nxt =>
      cases h3 : get_energy_diff_checked win c
          (self.d_rate / (bitrate - self.d_bitrate_step)) with
      | none => rw [h1, h2, h3] at h; cases h
      | some prv =>
        rw [h1, h2, h3] at h
        simp only [Option.some_bind, Option.some.injEq] at h
        unfold get_clock_rate_dir
        rw [get_energy_diff_checked_eq win inp hw _ _ _ h1,
          get_energy_diff_checked_eq win inp hw _ _ _ h2,
          get_energy_diff_checked_eq win inp hw _ _ _ h3]
        exact h

theorem preamble_candidate_checked_eq (self : keyfob_msg) (win : ℤ → Option ℚ) (inp : ℤ → ℚ)
    (hw : ∀ x v, win x = some v → inp x = v) (i : ℤ) (b : Bool)
    (h : preamble_candidate_checked self win i = some b) :
    preamble_candidate self inp i = b := by
  unfold preamble_candidate_checked at h
  unfold preamble_candidate
  cases hx : win i with
  | none => rw [hx] at h; cases h
  | some x =>
    rw [hx] at h
    simp only [Option.some_bind] at h
    rw [hw _ _ hx]
    split at h
    · next hthr =>
      rw [if_pos hthr]
      cases hy : win (i + 1) with
      | none => rw [hy] at h; cases h
      | some y =>
        rw [hy] at h
        simp only [Option.some_bind] at h
        rw [hw _ _ hy]
        split at h
        · next hgt =>
          rw [if_pos hgt]
          simp only [Option.some.injEq] at h
          exact h
        · next hgt =>
          rw [if_neg hgt]
          unfold preamble_found
          rw [hw _ _ hx]
          refine foldlM_refines _ _ ?_ (List.range' 1 12) true b h
          intro found j found' hstep
          cases hd : win (i + truncQ (self.d_samples_per_bit * ((j : ℤ) : ℚ))) with
          | none => rw [hd] at hstep; cases hstep
          | some d =>
            rw [hd] at hstep
            simp only [Option.map_some', Option.some.injEq] at hstep
            rw [hw _ _ hd]
            exact hstep
    · next hthr =>
      rw [if_neg hthr]
      simp only [Option.some.injEq] at h
      exact h

theorem bit_center_checked_eq (win : ℤ → Option ℚ) (inp : ℤ → ℚ)
    (hw : ∀ x v, win x = some v → inp x = v) (w : ℤ) :
    ∀ (fuel : ℕ) (i c : ℤ), bit_center_checked fuel win w i = Run.done c →
      bit_center fuel inp w i = some c := by
  intro fuel
  induction fuel with
  | zero => intro i c h; simp [bit_center_checked] at h
  | succ k ih =>
    intro i c h
    rw [bit_center_checked] at h
    rw [bit_center]
    cases hd : early_late_checked win i w with
    | none => rw [hd] at h; cases h
    | some d =>
      rw [hd] at h
      simp only at h
      rw [early_late_checked_eq win inp hw i w d hd]
      split at h
      · next hpos =>
        rw [if_pos hpos]
        exact ih _ _ h
      · next hpos =>
        rw [if_neg hpos]
        cases h
        rfl

theorem rate_search_checked_eq (self : keyfob_msg) (win : ℤ → Option ℚ) (inp : ℤ → ℚ)
    (hw : ∀ x v, win x = some v → inp x = v) (i : ℤ) :
    ∀ (fuel : ℕ) (tb tspb : ℚ) (res : ℚ × ℚ),
      rate_search_checked self win i fuel tb tspb = Run.done res →
      rate_search self inp i fuel tb tspb = some res := by
  intro fuel
  induction fuel with
  | zero => intro tb tspb res h; simp [rate_search_checked] at h
  | succ k ih =>
    intro tb tspb res h
    rw [rate_search_checked] at h
    rw [rate_search]
    split at h
    · next h1 =>
      rw [if_pos h1]
      exact ih _ _ _ h
    · next h1 =>
      rw [if_neg h1]
      split at h
      · next h2 =>
        rw [if_pos h2]
        exact ih _ _ _ h
      · next h2 =>
        rw [if_neg h2]
        cases hd : get_clock_rate_dir_checked self win i tb with
        | none => rw [hd] at h; cases h
        | some d =>
          rw [hd] at h
          simp only at h
          dsimp only
          rw [get_clock_rate_dir_checked_eq self win inp hw i tb d hd]
          split at h
          · next h3 =>
            rw [if_pos h3]
            cases h
            rfl
          · next h3 =>
            rw [if_neg h3]
            exact ih _ _ _ h

theorem its_on_checked_eq (win : ℤ → Option ℚ) (inp : ℤ → ℚ)
    (hw : ∀ x v, win x = some v → inp x = v) (i : ℤ) (spb ref : ℚ) :
    ∀ (js : List ℕ) (b : Bool), its_on_checked win i spb ref js = some b →
      js.all (fun j =>
        !(decide (inp (i + truncQ (spb * ((13 + 3 * j : ℤ) : ℚ))) > ref)
          || decide (inp (i + truncQ (spb * ((15 + 3 * j : ℤ) : ℚ))) < ref))) = b := by
  intro js
  induction js with
  | nil =>
    intro b h
    rw [its_on_checked] at h
    cases h
    rfl
  | cons j js ih =>
    intro b h
    rw [its_on_checked] at h
    rw [List.all_cons]
    cases hz : win (i + truncQ (spb * ((13 + 3 * j : ℤ) : ℚ))) with
    | none => rw [hz] at h; cases h
    | some z =>
      rw [hz] at h
      simp only [Option.some_bind] at h
      rw [hw _ _ hz]
      split at h
      · next hgt =>
        cases h
        simp [hgt]
      · next hgt =>
        cases ho : win (i + truncQ (spb * ((15 + 3 * j : ℤ) : ℚ))) with
        | none => rw [ho] at h; cases h
        | some o =>
          rw [ho] at h
          simp only [Option.some_bind] at h
          rw [hw _ _ ho]
          split at h
          · next hlt =>
            cases h
            simp [hlt]
          · next hlt =>
            rw [ih b h]
            simp [hgt, hlt]

theorem addr_bits_checked_eq (win : ℤ → Option ℚ) (inp : ℤ → ℚ)
    (hw : ∀ x v, win x = some v → inp x = v) (i : ℤ) (spb ref : ℚ) (a : ℤ)
    (h : addr_bits_checked win i spb ref = some a) : addr_bits inp i spb ref = a := by
  unfold addr_bits_checked at h
  unfold addr_bits
  refine foldlM_refines _ _ ?_ (List.range 10) 0 a h
  intro acc j acc' hstep
  cases h1 : win (i + truncQ (spb * ((14 + 6 * j + 0 : ℤ) : ℚ))) with
  | none => rw [h1] at hstep; cases hstep
  | some x =>
    cases h2 : win (i + truncQ (spb * ((14 + 6 * j + 3 : ℤ) : ℚ))) with
    | none => rw [h1, h2] at hstep; cases hstep
    | some y =>
      rw [h1, h2] at hstep
      simp only [Option.some_bind, Option.some.injEq] at hstep
      unfold address
      rw [hw _ _ h1, hw _ _ h2]
      exact hstep

theorem switch_bits_checked_eq (win : ℤ → Option ℚ) (inp : ℤ → ℚ)
    (hw : ∀ x v, win x = some v → inp x = v) (i : ℤ) (spb ref : ℚ) (a : ℤ)
    (h : switch_bits_checked win i spb ref = some a) : switch_bits inp i spb ref = a := by
  unfold switch_bits_checked at h
  unfold switch_bits
  refine foldlM_refines _ _ ?_ (List.range 8) 0 a h
  intro acc j acc' hstep
  cases h1 : win (i + truncQ (spb * ((74 + 6 * j + 0 : ℤ) : ℚ))) with
  | none => rw [h1] at hstep; cases hstep
  | some x =>
    cases h2 : win (i + truncQ (spb * ((74 + 6 * j + 3 : ℤ) : ℚ))) with
    | none => rw [h1, h2] at hstep; cases hstep
    | some y =>
      rw [h1, h2] at hstep
      simp only [Option.some_bind, Option.some.injEq] at hstep
      unfold switches
      rw [hw _ _ h1, hw _ _ h2]
      exact hstep

theorem work_body_checked_eq (fuel : ℕ) (self : keyfob_msg) (win : ℤ → Option ℚ)
    (inp : ℤ → ℚ) (hw : ∀ x v, win x = some v → inp x = v) (i : ℤ) (r : BodyResult)
    (h : work_body_checked fuel self win i = Run.done r) :
    work_body fuel self inp i = some r := by
  unfold work_body_checked at h
  cases hp : preamble_candidate_checked self win i with
  | none => rw [hp] at h; cases h
  | some b =>
    have hcand := preamble_candidate_checked_eq self win inp hw i b hp
    rw [hp] at h
    cases b with
    | false =>
      simp only at h
      cases h
      exact work_body_idle fuel self inp i hcand
    | true =>
      simp only at h
      cases hb : bit_center_checked fuel win (truncQ self.d_samples_per_bit) i with
      | timeout => rw [hb] at h; cases h
      | underrun => rw [hb] at h; cases h
      | done c =>
        have hbc := bit_center_checked_eq win inp hw _ fuel i c hb
        rw [hb] at h
        simp only at h
        cases hr : rate_search_checked self win c fuel self.d_bitrate self.d_samples_per_bit with
        | timeout => rw [hr] at h; cases h
        | underrun => rw [hr] at h; cases h
        | done res =>
          obtain ⟨tb, tspb⟩ := res
          have hrs := rate_search_checked_eq self win inp hw c fuel _ _ _ hr
          rw [hr] at h
          simp only at h
          unfold decode_checked at h
          cases hx : win c with
          | none => rw [hx] at h; cases h
          | some x =>
            rw [hx] at h
            simp only at h
            have hxc : inp c = x := hw _ _ hx
            cases ho : its_on_checked win c tspb (x / 2) (List.range 36) with
            | none => rw [ho] at h; cases h
            | some ok =>
              have hon : its_on inp c tspb (inp c / 2) = ok := by
                rw [hxc]
                exact its_on_checked_eq win inp hw c tspb (x / 2) _ ok ho
              rw [ho] at h
              cases ok with
              | false =>
                simp only at h
                cases h
                exact work_body_reject fuel self inp i c tb tspb hcand hbc hrs hon
              | true =>
                simp only at h
                cases ha : addr_bits_checked win c tspb (x / 2) with
                | none => rw [ha] at h; cases h
                | some a =>
                  cases hs : switch_bits_checked win c tspb (x / 2) with
                  | none => rw [ha, hs] at h; cases h
                  | some s =>
                    rw [ha, hs] at h
                    simp only at h
                    cases h
                    rw [work_body_emit fuel self inp i c tb tspb hcand hbc hrs hon, hxc,
                      addr_bits_checked_eq win inp hw c tspb (x / 2) a ha,
                      switch_bits_checked_eq win inp hw c tspb (x / 2) s hs]

theorem work_loop_checked_eq (win : ℤ → Option ℚ) (inp : ℤ → ℚ)
    (hw : ∀ x v, win x = some v → inp x = v) (noutput_items : ℤ) :
    ∀ (fuel : ℕ) (self : keyfob_msg) (posted : List Message) (i : ℤ) (res : WorkResult),
      work_loop_checked win noutput_items fuel self posted i = Run.done res →
      work_loop inp noutput_items fuel self posted i = some res := by
  intro fuel
  induction fuel with
  | zero => intro self posted i res h; simp [work_loop_checked] at h
  | succ k ih =>
    intro self posted i res h
    rw [work_loop_checked] at h
    rw [work_loop_succ]
    split at h
    · next hlt =>
      rw [if_pos hlt]
      cases hb : work_body_checked k self win i with
      | timeout => rw [hb] at h; cases h
      | underrun => rw [hb] at h; cases h
      | done r =>
        rw [hb] at h
        simp only at h
        rw [work_body_checked_eq k self win inp hw i r hb]
        exact ih _ _ _ _ h
    · next hlt =>
      rw [if_neg hlt]
      cases h
      rfl

/-- The checked `work` refines `work`: when the checked invocation over a window ends
without a read outside it, the unchecked invocation over any total extension of the window
ends with the same object, messages and return value. -/
theorem work_checked_refines (fuel : ℕ) (self : keyfob_msg) (inp : ℤ → ℚ) (lo hi : ℤ)
    (noutput_items : ℤ) (res : WorkResult)
    (h : work_checked fuel self (bounded inp lo hi) noutput_items = Run.done res) :
    work fuel self inp noutput_items = some res := by
  unfold work_checked at h
  unfold work
  refine work_loop_checked_eq (bounded inp lo hi) inp ?_ noutput_items fuel self [] 0 res h
  intro x v hx
  unfold bounded at hx
  split at hx
  · cases hx
    rfl
  · cases hx
